import Mathlib

set_option maxHeartbeats 1000000
set_option maxRecDepth 8000

/-!
Shallow embedding of the ksync server-side engine (repository jcbsnclr/ksync).

Conventions of the embedding:
* Machine integers (`u64`, `u128`, bytes) are `Nat`, with `% 2 ^ w` written
  out at the points where the Rust code truncates (`as u64` casts).
* A virtual-filesystem path (`Path` in `src/files/mod.rs`) is represented by
  its list of components: `Path::parts()`.  The root `/` is `[]`; the source
  guarantees components are nonempty and slash-free, and every tree operation
  consumes a path only through `parts`, `parent_child` (= `dropLast` /
  `getLast?`) and `ancestors` (= the nonempty proper prefixes).
* A `HashMap<String, Node>` is an association list with distinct keys;
  `HashMap::insert` replaces the binding of an existing key (`insertA`).
* `SystemTime::UNIX_EPOCH.elapsed().as_nanos()` (`now()`) is an explicit
  `Nat` argument of every operation that reads the clock.
* Fallible Rust functions (`Result`, panicking `unwrap`) become `Except Err`;
  an `unwrap` of `None` is modelled by the `Err.Panic` value.
* Both generations of the tree module present in the repository share one
  `Node` type: in `src/files.rs` a tombstone is `NodeData::File(None)` and in
  `src/files/node.rs` it is `data == None`; both are the `Node.tomb`
  constructor here (neither kind of tombstone has children).  The operations
  that differ between the two files live in the namespaces `FilesRs`
  (`src/files.rs`) and `NodeRs` (`src/files/node.rs`).
-/

/-- Error values appearing in the embedded code paths (the `io::ErrorKind`
values and `files::Error` variants used by the sources). `Panic` stands for a
Rust panic (an `unwrap` of `None`). -/
inductive Err where
  | NotADirectory
  | NotFound
  | InvalidFilename
  | IsADirectory
  | InvalidData
  | KeyNotFound
  | DecodeFailed
  | Panic
  deriving DecidableEq

/-- `Object` (src/files/mod.rs): a content address, the 32 SHA-256 hash bytes. -/
structure Object where
  hash : List Nat
  deriving DecidableEq

/-- Filesystem tree node, shared by `src/files.rs` (where `data` is
`NodeData::Dir | NodeData::File(Option<Object>)`) and `src/files/node.rs`
(where `data` is `Option<Dir | File(Object)>`).  `tomb` is the tombstone
(`File(None)` resp. `data == None`); it carries only the timestamp. -/
inductive Node where
  | dir (children : List (String × Node)) (timestamp : Nat)
  | file (obj : Object) (timestamp : Nat)
  | tomb (timestamp : Nat)

/-- Timestamp field of a node. -/
def Node.timestamp : Node → Nat
  | .dir _ ts => ts
  | .file _ ts => ts
  | .tomb ts => ts

/-- Replace the timestamp field, keeping the data (`child.timestamp = t` in
`Node::merge`). -/
def Node.setTs : Node → Nat → Node
  | .dir cs _, t => .dir cs t
  | .file o _, t => .file o t
  | .tomb _, t => .tomb t

/-- Local view of a node: its constructor and timestamp without the
children.  Used to state which paths an operation touches. -/
inductive Kind where
  | dirK (timestamp : Nat)
  | fileK (obj : Object) (timestamp : Nat)
  | tombK (timestamp : Nat)
  deriving DecidableEq

/-- Kind of a node. -/
def Node.kind : Node → Kind
  | .dir _ ts => .dirK ts
  | .file o ts => .fileK o ts
  | .tomb ts => .tombK ts

/-- Refresh the timestamp of a kind. -/
def Kind.withTs : Kind → Nat → Kind
  | .dirK _, t => .dirK t
  | .fileK o _, t => .fileK o t
  | .tombK _, t => .tombK t

/-- Association-list lookup (`HashMap::get`). -/
def lookupA {α β : Type} [DecidableEq α] : List (α × β) → α → Option β
  | [], _ => none
  | (k, v) :: rest, key => if k = key then some v else lookupA rest key

/-- Association-list insert (`HashMap::insert`): replace the binding of an
existing key, otherwise add a new one. -/
def insertA {α β : Type} [DecidableEq α] : List (α × β) → α → β → List (α × β)
  | [], key, val => [(key, val)]
  | (k, v) :: rest, key, val =>
      if k = key then (key, val) :: rest else (k, v) :: insertA rest key val

/-- `Anc p q`: path `p` is an ancestor of `q` or equal to it (`p` is a
leading segment of `q`'s components). -/
def Anc (p q : List String) : Prop := ∃ r, p ++ r = q

/-- `Node::traverse` / `Node::traverse_mut` (identical in `src/files.rs` and
`src/files/node.rs`): walk down by each path part via `get_child`, which
errors with `NotADirectory` whenever the current node is not a directory;
a missing child gives `Ok(None)`; the root path returns the node itself. -/
def traverseN : Node → List String → Except Err (Option Node)
  | n, [] => .ok (some n)
  | .dir cs _, part :: rest =>
      match lookupA cs part with
      | some child => traverseN child rest
      | none => .ok none
  | .file _ _, _ :: _ => .error .NotADirectory
  | .tomb _, _ :: _ => .error .NotADirectory

/-- Kind of the node reached at a path. -/
def kindAt (t : Node) (p : List String) : Except Err (Option Kind) :=
  (traverseN t p).map (Option.map Node.kind)

/-- Functional rendering of "traverse mutably to a path and update the node
there": walk exactly as `traverse_mut` does, apply `f` to the node found and
rebuild the spine.  `Ok(None)` (path absent, nothing changed) and the
`NotADirectory` error reproduce `traverse_mut`; errors of `f` reproduce the
caller's code that runs on the borrowed node. -/
def traverseModify : Node → List String → (Node → Except Err Node) → Except Err (Option Node)
  | n, [], f => (f n).map some
  | .dir cs ts, part :: rest, f =>
      match lookupA cs part with
      | some child =>
          match traverseModify child rest f with
          | .ok (some child2) => .ok (some (.dir (insertA cs part child2) ts))
          | .ok none => .ok none
          | .error e => .error e
      | none => .ok none
  | .file _ _, _ :: _, _ => .error .NotADirectory
  | .tomb _, _ :: _, _ => .error .NotADirectory

/-! SHA-256 (the `sha2` crate as used by `Files::create_object` and the sync
client), implemented from FIPS 180-4 over byte lists. -/

/-- Truncate to 32 bits. -/
def u32 (x : Nat) : Nat := x % 4294967296

/-- Rotate a 32-bit word right by `k`. -/
def rotr32 (k x : Nat) : Nat := u32 ((x >>> k) ||| (x <<< (32 - k)))

def bsig0 (x : Nat) : Nat := (rotr32 2 x) ^^^ (rotr32 13 x) ^^^ (rotr32 22 x)

def bsig1 (x : Nat) : Nat := (rotr32 6 x) ^^^ (rotr32 11 x) ^^^ (rotr32 25 x)

def ssig0 (x : Nat) : Nat := (rotr32 7 x) ^^^ (rotr32 18 x) ^^^ (x >>> 3)

def ssig1 (x : Nat) : Nat := (rotr32 17 x) ^^^ (rotr32 19 x) ^^^ (x >>> 10)

def chF (x y z : Nat) : Nat := (x &&& y) ^^^ ((x ^^^ 4294967295) &&& z)

def majF (x y z : Nat) : Nat := (x &&& y) ^^^ (x &&& z) ^^^ (y &&& z)

def sha256K : List Nat :=
  [1116352408, 1899447441, 3049323471, 3921009573, 961987163, 1508970993,
   2453635748, 2870763221, 3624381080, 310598401, 607225278, 1426881987,
   1925078388, 2162078206, 2614888103, 3248222580, 3835390401, 4022224774,
   264347078, 604807628, 770255983, 1249150122, 1555081692, 1996064986,
   2554220882, 2821834349, 2952996808, 3210313671, 3336571891, 3584528711,
   113926993, 338241895, 666307205, 773529912, 1294757372, 1396182291,
   1695183700, 1986661051, 2177026350, 2456956037, 2730485921, 2820302411,
   3259730800, 3345764771, 3516065817, 3600352804, 4094571909, 275423344,
   430227734, 506948616, 659060556, 883997877, 958139571, 1322822218,
   1537002063, 1747873779, 1955562222, 2024104815, 2227730452, 2361852424,
   2428436474, 2756734187, 3204031479, 3329325298]

def sha256H0 : List Nat :=
  [1779033703, 3144134277, 1013904242, 2773480762,
   1359893119, 2600822924, 528734635, 1541459225]

/-- Big-endian 8-byte encoding of a length in bits. -/
def be64 (n : Nat) : List Nat :=
  [(n >>> 56) % 256, (n >>> 48) % 256, (n >>> 40) % 256, (n >>> 32) % 256,
   (n >>> 24) % 256, (n >>> 16) % 256, (n >>> 8) % 256, n % 256]

/-- SHA-256 padding: append `0x80`, zero bytes to 56 mod 64, then the
bit length. -/
def sha256pad (m : List Nat) : List Nat :=
  m ++ 128 :: List.replicate ((64 - ((m.length + 9) % 64)) % 64) 0 ++ be64 (8 * m.length)

/-- Pack bytes into big-endian 32-bit words. -/
def words32 : List Nat → List Nat
  | b0 :: b1 :: b2 :: b3 :: rest =>
      (b0 * 16777216 + b1 * 65536 + b2 * 256 + b3) :: words32 rest
  | _ => []

/-- Split a word list into 16-word blocks (the input is always a multiple of
16 words after padding; a ragged tail would become a short final block). -/
def chunks16 : List Nat → List (List Nat)
  | w0 :: w1 :: w2 :: w3 :: w4 :: w5 :: w6 :: w7 ::
    w8 :: w9 :: w10 :: w11 :: w12 :: w13 :: w14 :: w15 :: rest =>
      [w0, w1, w2, w3, w4, w5, w6, w7, w8, w9, w10, w11, w12, w13, w14, w15]
        :: chunks16 rest
  | [] => []
  | rest => [rest]

/-- Message-schedule extension: 16 words to 64. -/
def schedExt (ws : List Nat) : List Nat :=
  (List.range 48).foldl
    (fun a i =>
      a ++ [u32 (a.getD i 0 + ssig0 (a.getD (i + 1) 0) + a.getD (i + 9) 0
                 + ssig1 (a.getD (i + 14) 0))])
    ws

/-- One SHA-256 compression round. -/
def sha256round (ws : List Nat) (st : List Nat) (t : Nat) : List Nat :=
  match st with
  | [a, b, c, d, e, f, g, h] =>
      let t1 := u32 (h + bsig1 e + chF e f g + sha256K.getD t 0 + ws.getD t 0)
      let t2 := u32 (bsig0 a + majF a b c)
      [u32 (t1 + t2), a, b, c, u32 (d + t1), e, f, g]
  | _ => st

/-- Compress one 16-word block into the running hash state. -/
def compressBlock (h : List Nat) (block : List Nat) : List Nat :=
  let ws := schedExt block
  let st := (List.range 64).foldl (sha256round ws) h
  match h, st with
  | [h0, h1, h2, h3, h4, h5, h6, h7], [a, b, c, d, e, f, g, hh] =>
      [u32 (h0 + a), u32 (h1 + b), u32 (h2 + c), u32 (h3 + d),
       u32 (h4 + e), u32 (h5 + f), u32 (h6 + g), u32 (h7 + hh)]
  | _, _ => st

/-- SHA-256 of a byte list, as 32 hash bytes. -/
def sha256 (m : List Nat) : List Nat :=
  let blocks := chunks16 (words32 (sha256pad m))
  let hfin := blocks.foldl compressBlock sha256H0
  hfin.foldr
    (fun w acc => (w >>> 24) % 256 :: (w >>> 16) % 256 :: (w >>> 8) % 256 :: w % 256 :: acc)
    []

/-! Object store (`Files::create_object` / `Files::load`, identical in
`src/files.rs` and `src/files/mod.rs`).  The sled tree `objects` is an
association list from the 32 hash bytes to the stored bytes. -/

/-- Backing store of the `objects` tree. -/
abbrev Store : Type := List (List Nat × List Nat)

/-- `Files::create_object`: hash the data with SHA-256 and write to the
backing store only if the key is absent; return the resulting `Object`. -/
def create_object (objects : Store) (data : List Nat) : Store × Object :=
  let hash := sha256 data
  match lookupA objects hash with
  | some _ => (objects, ⟨hash⟩)
  | none => (objects ++ [(hash, data)], ⟨hash⟩)

/-- `Files::load`: look an object up by hash.  The source unwraps the sled
`Option`, so `none` here models the panic on a missing object. -/
def load (objects : Store) (o : Object) : Option (List Nat) :=
  lookupA objects o.hash

/-- `Node::is_dir` (src/files/node.rs). -/
def Node.isDir : Node → Bool
  | .dir _ _ => true
  | _ => false

/-- `Node::file` (src/files/node.rs): the object of a live file. -/
def Node.fileObj : Node → Option Object
  | .file o _ => some o
  | _ => none

/-- `Node::data().is_none()`: the node is a tombstone. -/
def Node.dataIsNone : Node → Bool
  | .tomb _ => true
  | _ => false

namespace FilesRs

/-- Body of `make_dir` run on the borrowed parent node (`has_child` — which
errors `NotADirectory` on a non-directory — then `insert_child` of a fresh
empty directory stamped `now` when the name is absent). -/
def makeDirF (name : String) (now : Nat) : Node → Except Err Node
  | .dir cs ts =>
      match lookupA cs name with
      | some _ => .ok (.dir cs ts)
      | none => .ok (.dir (insertA cs name (.dir [] now)) ts)
  | .file _ _ => .error .NotADirectory
  | .tomb _ => .error .NotADirectory

/-- `Node::make_dir` (src/files.rs, same logic in src/files/node.rs): create
one directory at `parent/name`; no-op for the root path and when the child
name already exists (whatever it is); `NotFound` when the parent is absent,
`NotADirectory` when the walk hits a non-directory. -/
def makeDir (t : Node) (p : List String) (now : Nat) : Except Err Node :=
  match p.getLast? with
  | none => .ok t
  | some name =>
      match traverseModify t p.dropLast (makeDirF name now) with
      | .ok (some t2) => .ok t2
      | .ok none => .error .NotFound
      | .error e => .error e

/-- `Node::make_dir_recursive`: `make_dir` on every ancestor (root first) and
then on the path itself, i.e. on every nonempty leading segment. -/
def makeDirRecursive (t : Node) (p : List String) (now : Nat) : Except Err Node :=
  (List.range p.length).foldlM (fun acc i => makeDir acc (p.take (i + 1)) now) t

/-- `Node::insert` (src/files.rs): `InvalidFilename` on the root path,
`NotFound` when the parent is absent, otherwise `insert_child` of
`File(object)` under the parent (which must be a directory); an existing
child of any shape is replaced. -/
def insert (t : Node) (p : List String) (o : Object) (now : Nat) : Except Err Node :=
  match p.getLast? with
  | none => .error .InvalidFilename
  | some name =>
      match traverseModify t p.dropLast (fun n =>
        match n with
        | .dir cs ts => .ok (.dir (insertA cs name (.file o now)) ts)
        | _ => .error .NotADirectory) with
      | .ok (some t2) => .ok t2
      | .ok none => .error .NotFound
      | .error e => .error e

/-- `Node::delete` (src/files.rs): only a `File` node (live or tombstone) can
be deleted; its object is set to `None` and its timestamp refreshed;
`InvalidFilename` on a directory, `NotFound` when the path is absent. -/
def delete (t : Node) (p : List String) (now : Nat) : Except Err Node :=
  match traverseModify t p (fun n =>
    match n with
    | .file _ _ => .ok (.tomb now)
    | .tomb _ => .ok (.tomb now)
    | .dir _ _ => .error .InvalidFilename) with
  | .ok (some t2) => .ok t2
  | .ok none => .error .NotFound
  | .error e => .error e

mutual

/-- Entries contributed by one node to `Node::file_list` (src/files.rs):
every descendant `File` node, live (`some obj`) or tombstone (`none`), with
its path and timestamp; directories are walked but not reported. -/
def fileListNode : Node → List String → List (List String × Option Object × Nat)
  | .file o ts, pref => [(pref, some o, ts)]
  | .tomb ts, pref => [(pref, none, ts)]
  | .dir cs _, pref => fileListKids cs pref

/-- `file_list` entries of a children list. -/
def fileListKids : List (String × Node) → List String → List (List String × Option Object × Nat)
  | [], _ => []
  | (name, c) :: rest, pref => fileListNode c (pref ++ [name]) ++ fileListKids rest pref

end

/-- `Node::file_list`: requires the receiver to be a directory. -/
def file_list (t : Node) : Except Err (List (List String × Option Object × Nat)) :=
  match t with
  | .dir cs _ => .ok (fileListKids cs [])
  | _ => .error .NotADirectory

/-- Body of the merge loop run on the borrowed parent node (`get_child` —
which errors `NotADirectory` on a non-directory — then either refresh the
existing child's timestamp to `tsM` or `insert_child` a tombstone stamped
`tsM`). -/
def mergeF (child : String) (tsM : Nat) : Node → Except Err Node
  | .dir cs ts =>
      match lookupA cs child with
      | some c => .ok (.dir (insertA cs child (c.setTs tsM)) ts)
      | none => .ok (.dir (insertA cs child (.tomb tsM)) ts)
  | .file _ _ => .error .NotADirectory
  | .tomb _ => .error .NotADirectory

/-- One iteration of the loop in `Node::merge` (src/files.rs), for the entry
at `p` of the other tree's `file_list`: `make_dir_recursive` on the parent,
re-traverse to the parent (the source unwraps, `Panic` models that), then
either refresh the existing child's timestamp to the single merge timestamp
`tsM` or insert a tombstone stamped `tsM`.  `dirNow` is the clock value used
for directories created along the way (`Node::new_dir`). -/
def mergeEntry (t : Node) (p : List String) (tsM dirNow : Nat) : Except Err Node :=
  match p.getLast? with
  | none => .error .Panic
  | some child => do
      let t1 ← makeDirRecursive t p.dropLast dirNow
      match traverseModify t1 p.dropLast (mergeF child tsM) with
      | .ok (some t2) => .ok t2
      | .ok none => .error .Panic
      | .error e => .error e

/-- `Node::merge` (src/files.rs): fold `mergeEntry` over every file-or-
tombstone path of `rhs`.  `tsM` is the single `now()` computed at the top of
`merge`. -/
def merge (t rhs : Node) (tsM dirNow : Nat) : Except Err Node := do
  let fl ← file_list rhs
  fl.foldlM (fun acc e => mergeEntry acc e.1 tsM dirNow) t

end FilesRs

namespace NodeRs

/-- `Node::insert` (src/files/node.rs): `IsADirectory` on the root path,
`NotFound` when the parent is absent, `IsADirectory` when the existing child
at the path is a directory; otherwise the child (absent, file or tombstone)
is replaced by `File(object)` stamped `now`. -/
def insert (t : Node) (p : List String) (o : Object) (now : Nat) : Except Err Node :=
  match p.getLast? with
  | none => .error .IsADirectory
  | some name =>
      match traverseModify t p.dropLast (fun n =>
        match n with
        | .dir cs ts =>
            match lookupA cs name with
            | some c =>
                if c.isDir then .error .IsADirectory
                else .ok (.dir (insertA cs name (.file o now)) ts)
            | none => .ok (.dir (insertA cs name (.file o now)) ts)
        | _ => .error .NotADirectory) with
      | .ok (some t2) => .ok t2
      | .ok none => .error .NotFound
      | .error e => .error e

/-- `Node::delete` (src/files/node.rs): set the node's `data` to `None`; the
timestamp field is left as it is.  `NotFound` when the path is absent. -/
def delete (t : Node) (p : List String) : Except Err Node :=
  match traverseModify t p (fun n => .ok (.tomb n.timestamp)) with
  | .ok (some t2) => .ok t2
  | .ok none => .error .NotFound
  | .error e => .error e

end NodeRs

/-- `Revision` (src/files/mod.rs). -/
inductive Revision where
  | FromLatest (n : Nat)
  | FromEarliest (n : Nat)
  | AsOfTime (t : Nat)
  deriving DecidableEq

/-- Revision resolution in `Files::get_root` (src/files/mod.rs, lines
301-305): `FromLatest(n)` is `iter().nth_back(n)`, `FromEarliest(n)` is
`iter().nth(n)`, `AsOfTime(t)` is `iter().take_while(ts < t).last()`.  The
source unwraps the `Option`; `none` here is that panic. -/
def resolveRevision {α : Type} (history : List (Nat × α)) : Revision → Option (Nat × α)
  | .FromLatest n => history.reverse.get? n
  | .FromEarliest n => history.get? n
  | .AsOfTime t => (history.takeWhile (fun e => e.1 < t)).getLast?

/-- `Rollback::call` (src/server/methods/fs.rs): load the root selected by
the revision, load the latest root, merge the latest into the old one, and
append the merged tree to the root's history (`set_root` goes through the
`root_merge` sled operator, which appends `(now, object)`).  The history here
holds the deserialized trees; object (de)serialization through the store is
the identity of `bincode` round-trips. -/
def rollback (hist : List (Nat × Node)) (rev : Revision) (tsM dirNow nowAppend : Nat) :
    Except Err (List (Nat × Node)) :=
  match resolveRevision hist rev with
  | none => .error .Panic
  | some (_, oldRoot) =>
      match resolveRevision hist (.FromLatest 0) with
      | none => .error .Panic
      | some (_, newRoot) => do
          let merged ← FilesRs.merge oldRoot newRoot tsM dirNow
          .ok (hist ++ [(nowAppend, merged)])

/-! Keys and the keyring (src/files/crypto.rs, src/files/mod.rs).  The ring
crate's Ed25519 primitives are external: `ed25519` (public key bytes,
message, signature ↦ does it verify) and `pkcs8pub` (PKCS#8 pair bytes ↦
raw public key bytes) are parameters of every definition using them. -/

/-- `KeyKind` (src/files/crypto.rs). -/
inductive KeyKind where
  | Public (bytes : List Nat)
  | Pair (bytes : List Nat)
  deriving DecidableEq

/-- `Key` (src/files/crypto.rs). -/
structure Key where
  kind : KeyKind
  identifier : String
  signature : Option (List Nat)
  deriving DecidableEq

/-- Little-endian 4-byte encoding (bincode enum variant tag). -/
def u32le (n : Nat) : List Nat :=
  [n % 256, (n >>> 8) % 256, (n >>> 16) % 256, (n >>> 24) % 256]

/-- Little-endian 8-byte encoding (bincode length word). -/
def u64le (n : Nat) : List Nat :=
  [n % 256, (n >>> 8) % 256, (n >>> 16) % 256, (n >>> 24) % 256,
   (n >>> 32) % 256, (n >>> 40) % 256, (n >>> 48) % 256, (n >>> 56) % 256]

/-- `bincode::serialize(&self.kind)`: the canonical signing input — a 4-byte
little-endian variant tag (0 for `Public`, 1 for `Pair`) followed by the byte
vector with its `u64` length. -/
def encodeKind : KeyKind → List Nat
  | .Public bs => u32le 0 ++ u64le bs.length ++ bs
  | .Pair bs => u32le 1 ++ u64le bs.length ++ bs

/-- `Key::raw`: the raw bytes of either kind. -/
def Key.raw (k : Key) : List Nat :=
  match k.kind with
  | .Public d => d
  | .Pair d => d

/-- `Key::pub_key`: the public half, with the signature dropped. -/
def Key.pub_key (pkcs8pub : List Nat → List Nat) (k : Key) : Key :=
  match k.kind with
  | .Public d => ⟨.Public d, k.identifier, none⟩
  | .Pair d => ⟨.Public (pkcs8pub d), k.identifier, none⟩

/-- `Key::verify`: `Ok(false)` when no signature is present, otherwise check
the signature over the canonical serialization of `kind` under the signer's
public key. -/
def Key.verify (ed25519 : List Nat → List Nat → List Nat → Bool)
    (pkcs8pub : List Nat → List Nat) (self signer : Key) : Except Err Bool :=
  match self.signature with
  | some s => .ok (ed25519 ((signer.pub_key pkcs8pub).raw) (encodeKind self.kind) s)
  | none => .ok false

/-- `Files::get_key` (src/files/mod.rs): traverse the latest keyring root to
the path, take the file object, load and decode the `Key`.  `decodeKey`
models `Files::deserialize` on the object store (`none` = decode failure);
a missing path or a non-file node is `NotFound`. -/
def get_key (keyring : Node) (decodeKey : Object → Option Key) (p : List String) :
    Except Err Key :=
  match traverseN keyring p with
  | .error e => .error e
  | .ok nodeOpt =>
      match nodeOpt.bind Node.fileObj with
      | some obj =>
          match decodeKey obj with
          | some k => .ok k
          | none => .error .DecodeFailed
      | none => .error .NotFound

/-- `Files::get_server_key`: load `/self/server` and `/self/admin`, and
require the server key to verify under the admin key. -/
def get_server_key (keyring : Node) (decodeKey : Object → Option Key)
    (ed25519 : List Nat → List Nat → List Nat → Bool) (pkcs8pub : List Nat → List Nat) :
    Except Err Key := do
  let key ← get_key keyring decodeKey ["self", "server"]
  let adminKey ← get_key keyring decodeKey ["self", "admin"]
  let v ← key.verify ed25519 pkcs8pub adminKey
  if v then .ok key else .error .InvalidData

/-- `Files::verify_client` (src/files/mod.rs): load the server key, load
`/trusted/client`, and return (stored key verifies under the server key) AND
(stored key's raw public bytes = presented key's raw public bytes). -/
def verify_client (keyring : Node) (decodeKey : Object → Option Key)
    (ed25519 : List Nat → List Nat → List Nat → Bool) (pkcs8pub : List Nat → List Nat)
    (key : Key) : Except Err Bool := do
  let serverKey ← get_server_key keyring decodeKey ed25519 pkcs8pub
  let clientKey ← get_key keyring decodeKey ["trusted", "client"]
  let isVerified ← clientKey.verify ed25519 pkcs8pub serverKey
  let isEqual := (clientKey.pub_key pkcs8pub).raw == (key.pub_key pkcs8pub).raw
  .ok (isVerified && isEqual)

/-! RPC session (src/server/mod.rs, src/server/methods/auth.rs,
src/server/methods/fs.rs).  The per-connection method table is the list of
registered method names. -/

/-- Names registered by `methods::fs::register`. -/
def fsMethodNames : List String :=
  ["GET", "INSERT", "DELETE", "CLEAR", "ROLLBACK", "GET_NODE", "GET_HISTORY"]

/-- `Context::register`: `HashMap::insert` keyed by the method name. -/
def registerName (methods : List String) (name : String) : List String :=
  if name ∈ methods then methods else methods ++ [name]

/-- `Identify::call` (src/server/methods/auth.rs) as it acts on the method
table: `IDENTIFY` is deregistered first; then, on `verify_client` returning
`Ok(true)`, the filesystem methods are registered; on `Ok(false)` the handler
returns `InvalidData`; an `Err` of `verify_client` propagates.  The returned
pair is (table after the call, result).  The table mutations persist even
when an error is returned, because the handler works on the borrowed
context. -/
def identifyCall (verifyResult : Except Err Bool) (methods : List String) :
    List String × Except Err Unit :=
  let m1 := methods.erase "IDENTIFY"
  match verifyResult with
  | .ok true => (fsMethodNames.foldl registerName m1, .ok ())
  | .ok false => (m1, .error .InvalidData)
  | .error e => (m1, .error e)

/-- `proto::Packet`. -/
structure Packet where
  method : String
  data : List Nat
  deriving DecidableEq

/-- One response frame: `OK` with payload or `ERR` with the error string. -/
inductive Frame where
  | okF (data : List Nat)
  | errF (msg : String)
  deriving DecidableEq

/-- One `proto::read_packet` outcome: a packet, or a fatal read error (bad
magic / truncated frame).  End of the event list is end of stream (EOF). -/
inductive ReadEvent where
  | packet (p : Packet)
  | fatal
  deriving DecidableEq

/-- The per-connection request loop of `Server::run` (src/server/mod.rs,
lines 111-138): read a packet; on a dispatch success write `OK` and loop; on
a dispatch error write `ERR` and `return Err(e)` — which leaves the loop and
drops the connection; on a read error the error propagates without writing
anything.  `dispatch` threads the mutable per-connection state `σ` (the
method table mutated by handlers).  Returns the frames written and whether
the connection closed cleanly (EOF). -/
def connLoop {σ : Type} (dispatch : σ → Packet → σ × Except String (List Nat)) :
    σ → List ReadEvent → List Frame × Bool
  | _, [] => ([], true)
  | _, .fatal :: _ => ([], false)
  | s, .packet p :: rest =>
      match dispatch s p with
      | (s2, .ok data) =>
          let out := connLoop dispatch s2 rest
          (.okF data :: out.1, out.2)
      | (_, .error e) => ([.errF e], false)

/-! Sync client (src/sync.rs). -/

/-- `FileStatus` (src/sync.rs). -/
inductive FileStatus where
  | Newer
  | Older
  | Same
  | NotPresent
  | Deleted
  deriving DecidableEq

/-- The action `SyncClient::resync_file` takes for each status. -/
inductive SyncAction where
  | fetch
  | upload
  | deleteLocal
  | nothing
  deriving DecidableEq

/-- `resync_file`'s dispatch on the status: fetch when `Older` or
`NotPresent`, upload when `Newer`, delete the local copy when `Deleted`. -/
def FileStatus.action : FileStatus → SyncAction
  | .Older => .fetch
  | .NotPresent => .fetch
  | .Newer => .upload
  | .Deleted => .deleteLocal
  | .Same => .nothing

/-- `SyncClient::compare` (src/sync.rs, lines 158-218).  The local file state
is (exists?, content bytes, mtime in nanoseconds).  A remote node that is a
tombstone **or a directory** is treated as remote-deleted; an absent remote
node makes the local file `Newer`; two live copies compare by SHA-256 and
then by mtime against the remote timestamp truncated `as u64`, the server
winning ties. -/
def SyncClient.compare (root : Node) (p : List String) (localExists : Bool)
    (localData : List Nat) (localMtime : Nat) : Except Err FileStatus :=
  match traverseN root p with
  | .error e => .error e
  | .ok none => .ok .Newer
  | .ok (some f) =>
      if f.dataIsNone || f.isDir then
        if !localExists then .ok .Same else .ok .Deleted
      else
        if localExists then
          match traverseN root p with
          | .error e => .error e
          | .ok none => .ok .Newer
          | .ok (some f2) =>
              if f2.dataIsNone || f2.isDir then .ok .Deleted
              else
                match f2.fileObj with
                | none => .error .Panic
                | some o =>
                    if sha256 localData == o.hash then .ok .Same
                    else if localMtime > f2.timestamp % 18446744073709551616 then .ok .Newer
                    else .ok .Older
        else .ok .NotPresent

/-- The sync client's per-file decision: `compare` followed by
`resync_file`'s dispatch. -/
def resyncDecision (root : Node) (p : List String) (localExists : Bool)
    (localData : List Nat) (localMtime : Nat) : Except Err SyncAction :=
  (SyncClient.compare root p localExists localData localMtime).map FileStatus.action

/-- Decision table of spec §4.7 as amended by the counterexample: an absent
remote path means "no remote file" (upload); a remote directory is treated
like a tombstone (remote-deleted: delete the local copy when one exists);
for two live files with differing hashes the local copy is uploaded iff its
mtime is strictly greater than the remote timestamp (`as u64`), otherwise
fetched. -/
def specDecision (root : Node) (p : List String) (localExists : Bool)
    (localData : List Nat) (localMtime : Nat) : Except Err SyncAction :=
  match traverseN root p with
  | .error e => .error e
  | .ok none => .ok .upload
  | .ok (some n) =>
      match n.kind with
      | .dirK _ => .ok (if localExists then .deleteLocal else .nothing)
      | .tombK _ => .ok (if localExists then .deleteLocal else .nothing)
      | .fileK o ts =>
          if localExists then
            if sha256 localData == o.hash then .ok .nothing
            else if localMtime > ts % 18446744073709551616 then .ok .upload
            else .ok .fetch
          else .ok .fetch

instance {e a : Type} [DecidableEq e] [DecidableEq a] : DecidableEq (Except e a)
  | .error e1, .error e2 =>
      if h : e1 = e2 then isTrue (by rw [h]) else isFalse (fun hh => h (by injection hh))
  | .error _, .ok _ => isFalse (fun hh => Except.noConfusion hh)
  | .ok _, .error _ => isFalse (fun hh => Except.noConfusion hh)
  | .ok a1, .ok a2 =>
      if h : a1 = a2 then isTrue (by rw [h]) else isFalse (fun hh => h (by injection hh))

/-- Did a tree operation succeed? -/
def isOkE {α : Type} : Except Err α → Bool
  | .ok _ => true
  | .error _ => false

/-- Keys of a children list are pairwise distinct. -/
def keysND : List (String × Node) → Bool
  | [] => true
  | (k, _) :: rest => !(rest.map Prod.fst).contains k && keysND rest

mutual

/-- Well-formedness of a tree as deserialized from a Rust `HashMap`: every
directory's children list has distinct keys. -/
def Node.wf : Node → Bool
  | .dir cs _ => keysND cs && wfKids cs
  | .file _ _ => true
  | .tomb _ => true

/-- All children are well-formed. -/
def wfKids : List (String × Node) → Bool
  | [] => true
  | (_, c) :: rest => c.wf && wfKids rest

end

/-- Kind at a path of the tree returned by an operation (errors pass
through). -/
def kindAfter (r : Except Err Node) (p : List String) : Except Err (Option Kind) :=
  match r with
  | .ok t => kindAt t p
  | .error e => .error e

/-! ### Basic lemmas about the shared tree model -/

theorem lookupA_insertA_self {α β : Type} [DecidableEq α] (cs : List (α × β)) (k : α) (v : β) :
    lookupA (insertA cs k v) k = some v := by
  induction cs with
  | nil => simp [insertA, lookupA]
  | cons e rest ih =>
      obtain ⟨k2, v2⟩ := e
      by_cases h : k2 = k
      · subst h; simp [insertA, lookupA]
      · simp [insertA, lookupA, h, ih]

theorem lookupA_insertA_ne {α β : Type} [DecidableEq α] (cs : List (α × β)) (k k' : α) (v : β)
    (h : k' ≠ k) : lookupA (insertA cs k v) k' = lookupA cs k' := by
  have hk : (k = k') = False := by
    simp only [eq_iff_iff, iff_false]
    intro hh
    exact h hh.symm
  induction cs with
  | nil => simp [insertA, lookupA, hk]
  | cons e rest ih =>
      obtain ⟨k2, v2⟩ := e
      by_cases h2 : k2 = k
      · subst h2
        simp [insertA, lookupA, hk]
      · by_cases h3 : k2 = k'
        · simp [insertA, lookupA, h2, h3, h]
        · simp [insertA, lookupA, h2, h3, ih]

theorem insertA_self {α β : Type} [DecidableEq α] (cs : List (α × β)) (k : α) (v : β)
    (h : lookupA cs k = some v) : insertA cs k v = cs := by
  induction cs with
  | nil => simp [lookupA] at h
  | cons e rest ih =>
      obtain ⟨k2, v2⟩ := e
      by_cases h2 : k2 = k
      · subst h2
        simp [lookupA] at h
        simp [insertA, h]
      · simp only [lookupA, if_neg h2] at h
        simp [insertA, h2, ih h]

theorem Anc_nil (q : List String) : Anc [] q := ⟨q, rfl⟩

theorem Anc_self (p : List String) : Anc p p := ⟨[], by simp⟩

theorem Anc_cons_iff (a : String) (p q : List String) :
    Anc (a :: p) (a :: q) ↔ Anc p q := by
  constructor
  · rintro ⟨r, hr⟩
    exact ⟨r, by simpa using hr⟩
  · rintro ⟨r, hr⟩
    exact ⟨r, by simp [hr]⟩

theorem Anc_cons_ne {a b : String} {p q : List String} (h : a ≠ b) :
    ¬ Anc (a :: p) (b :: q) := by
  rintro ⟨r, hr⟩
  simp at hr
  exact h hr.1

theorem Anc_cons_nil (a : String) (p : List String) : ¬ Anc (a :: p) [] := by
  rintro ⟨r, hr⟩
  simp at hr

theorem traverseN_append (a b : List String) (n : Node) :
    traverseN n (a ++ b) =
      match traverseN n a with
      | .ok (some m) => traverseN m b
      | .ok none => .ok none
      | .error e => .error e := by
  induction a generalizing n with
  | nil => simp [traverseN]
  | cons part rest ih =>
      cases n with
      | dir cs ts =>
          simp only [List.cons_append, traverseN]
          cases lookupA cs part with
          | some child => exact ih child
          | none => rfl
      | file o ts => rfl
      | tomb ts => rfl

theorem traverseN_setTs (n : Node) (t : Nat) (p : List String) (h : p ≠ []) :
    traverseN (n.setTs t) p = traverseN n p := by
  cases p with
  | nil => exact absurd rfl h
  | cons a rest => cases n <;> simp [Node.setTs, traverseN]

theorem kindAt_nil (n : Node) : kindAt n [] = .ok (some n.kind) := by
  simp [kindAt, traverseN, Except.map]

/-! ### Effect of `traverseModify` -/

theorem traverseModify_none (w : List String) (f : Node → Except Err Node) (n : Node)
    (h : traverseN n w = .ok none) : traverseModify n w f = .ok none := by
  induction w generalizing n with
  | nil => simp [traverseN] at h
  | cons part rest ih =>
      cases n with
      | dir cs ts =>
          simp only [traverseN] at h
          simp only [traverseModify]
          cases hcl : lookupA cs part with
          | some child =>
              rw [hcl] at h
              simp [ih child h]
          | none => simp
      | file o ts => simp [traverseN] at h
      | tomb ts => simp [traverseN] at h

theorem traverseModify_ferr (w : List String) (f : Node → Except Err Node) (n m : Node)
    (e : Err) (hm : traverseN n w = .ok (some m)) (hf : f m = .error e) :
    traverseModify n w f = .error e := by
  induction w generalizing n with
  | nil =>
      simp only [traverseN, Except.ok.injEq, Option.some.injEq] at hm
      subst hm
      simp [traverseModify, hf, Except.map]
  | cons part rest ih =>
      cases n with
      | dir cs ts =>
          simp only [traverseN] at hm
          simp only [traverseModify]
          cases hcl : lookupA cs part with
          | some child =>
              rw [hcl] at hm
              simp [ih child hm]
          | none => rw [hcl] at hm; exact absurd hm (by simp)
      | file o ts => simp [traverseN] at hm
      | tomb ts => simp [traverseN] at hm

theorem traverseModify_ok_inv (w : List String) (f : Node → Except Err Node) (n n2 : Node)
    (h : traverseModify n w f = .ok (some n2)) :
    ∃ m m2, traverseN n w = .ok (some m) ∧ f m = .ok m2 := by
  induction w generalizing n n2 with
  | nil =>
      simp only [traverseModify] at h
      cases hf : f n with
      | ok v => exact ⟨n, v, by simp [traverseN], hf⟩
      | error e => rw [hf] at h; simp [Except.map] at h
  | cons part rest ih =>
      cases n with
      | dir cs ts =>
          simp only [traverseModify] at h
          cases hcl : lookupA cs part with
          | some child =>
              rw [hcl] at h
              simp only [] at h
              cases htm : traverseModify child rest f with
              | ok v =>
                  cases v with
                  | some c2 =>
                      obtain ⟨m, m2, hm, hf⟩ := ih child c2 htm
                      exact ⟨m, m2, by simp only [traverseN, hcl]; exact hm, hf⟩
                  | none => rw [htm] at h; simp at h
              | error e => rw [htm] at h; simp at h
          | none => rw [hcl] at h; simp at h
      | file o ts => simp [traverseModify] at h
      | tomb ts => simp [traverseModify] at h

theorem traverseModify_spec (w : List String) (f : Node → Except Err Node) :
    ∀ (n m m2 : Node), traverseN n w = .ok (some m) → f m = .ok m2 →
    ∃ n2, traverseModify n w f = .ok (some n2)
      ∧ traverseN n2 w = .ok (some m2)
      ∧ (∀ p, ¬ Anc w p → ¬ Anc p w → traverseN n2 p = traverseN n p)
      ∧ (∀ p, Anc p w → p ≠ w → kindAt n2 p = kindAt n p)
      ∧ (m2 = m → n2 = n) := by
  induction w with
  | nil =>
      intro n m m2 hm hf
      simp only [traverseN, Except.ok.injEq, Option.some.injEq] at hm
      subst hm
      refine ⟨m2, by simp [traverseModify, hf, Except.map], by simp [traverseN], ?_, ?_, ?_⟩
      · intro p hp _
        exact absurd (Anc_nil p) hp
      · intro p hp hne
        obtain ⟨r, hr⟩ := hp
        simp at hr
        exact absurd hr.1 hne
      · intro h; exact h
  | cons part rest ih =>
      intro n m m2 hm hf
      cases n with
      | dir cs ts =>
          simp only [traverseN] at hm
          cases hcl : lookupA cs part with
          | none => rw [hcl] at hm; exact absurd hm (by simp)
          | some child =>
              rw [hcl] at hm
              simp only [] at hm
              obtain ⟨c2, htm, hat, hframe, hanc, hnoop⟩ := ih child m m2 hm hf
              refine ⟨.dir (insertA cs part c2) ts, ?_, ?_, ?_, ?_, ?_⟩
              · simp [traverseModify, hcl, htm]
              · simp only [traverseN, lookupA_insertA_self]
                exact hat
              · intro p hp1 hp2
                cases p with
                | nil => exact absurd (Anc_nil _) hp2
                | cons a p' =>
                    by_cases ha : a = part
                    · subst ha
                      simp only [traverseN]
                      rw [lookupA_insertA_self, hcl]
                      exact hframe p' (fun hh => hp1 ((Anc_cons_iff a rest p').mpr hh))
                        (fun hh => hp2 ((Anc_cons_iff a p' rest).mpr hh))
                    · simp only [traverseN]
                      rw [lookupA_insertA_ne cs part a c2 ha]
              · intro p hp hne
                cases p with
                | nil => simp [kindAt, traverseN, Node.kind, Except.map]
                | cons a p' =>
                    obtain ⟨r, hr⟩ := hp
                    simp only [List.cons_append, List.cons.injEq] at hr
                    obtain ⟨rfl, hr2⟩ := hr
                    have hne' : p' ≠ rest := by
                      intro hh
                      exact hne (by rw [hh])
                    simp only [kindAt, traverseN]
                    rw [lookupA_insertA_self, hcl]
                    exact hanc p' ⟨r, hr2⟩ hne'
              · intro h
                rw [hnoop h, insertA_self cs part child hcl]
      | file o ts => simp [traverseN] at hm
      | tomb ts => simp [traverseN] at hm

/-! ### Lemmas about the object store -/

theorem lookupA_mem {α β : Type} [DecidableEq α] (l : List (α × β)) (k : α) (v : β)
    (h : lookupA l k = some v) : (k, v) ∈ l := by
  induction l with
  | nil => simp [lookupA] at h
  | cons e rest ih =>
      obtain ⟨k2, v2⟩ := e
      by_cases h2 : k2 = k
      · subst h2
        simp [lookupA] at h
        simp [h]
      · simp only [lookupA, if_neg h2] at h
        simp [ih h]

theorem lookupA_append_none {α β : Type} [DecidableEq α] (l1 l2 : List (α × β)) (k : α)
    (h : lookupA l1 k = none) : lookupA (l1 ++ l2) k = lookupA l2 k := by
  induction l1 with
  | nil => simp
  | cons e rest ih =>
      obtain ⟨k2, v2⟩ := e
      by_cases h2 : k2 = k
      · subst h2; simp [lookupA] at h
      · simp only [lookupA, if_neg h2] at h
        simp only [List.cons_append, lookupA, if_neg h2]
        exact ih h

/-- Claim C5: `put(b)` (`Files::create_object`) returns the `Object` whose
hash is SHA-256 of `b`; it writes to the objects store only when that key is
absent, so a second put of the same bytes changes nothing; and
`get(put(b))` (`Files::load`) returns `b`.  The hypothesis is the SHA-256
collision-resistance assumption the spec itself makes: no stored entry
collides with `b` under SHA-256 while holding different bytes. -/
theorem create_object_spec (objects : Store) (b : List Nat)
    (hcol : ∀ e ∈ objects, e.1 = sha256 b → e.2 = b) :
    (create_object objects b).2 = ⟨sha256 b⟩
    ∧ (lookupA objects (sha256 b) = none →
        (create_object objects b).1 = objects ++ [(sha256 b, b)])
    ∧ (∀ v, lookupA objects (sha256 b) = some v → (create_object objects b).1 = objects)
    ∧ create_object (create_object objects b).1 b = ((create_object objects b).1, ⟨sha256 b⟩)
    ∧ load (create_object objects b).1 (create_object objects b).2 = some b := by
  cases hl : lookupA objects (sha256 b) with
  | some v =>
      have hvb : v = b := hcol _ (lookupA_mem objects (sha256 b) v hl) rfl
      subst hvb
      refine ⟨?_, ?_, ?_, ?_, ?_⟩
      · simp [create_object, hl]
      · intro hn
        exact Option.noConfusion hn
      · intro v2 _; simp [create_object, hl]
      · simp [create_object, hl]
      · simp [create_object, load, hl]
  | none =>
      refine ⟨?_, ?_, ?_, ?_, ?_⟩
      · simp [create_object, hl]
      · intro _; simp [create_object, hl]
      · intro v2 hv2
        exact Option.noConfusion hv2
      · have hl2 : lookupA (objects ++ [(sha256 b, b)]) (sha256 b) = some b := by
          rw [lookupA_append_none objects _ _ hl]
          simp [lookupA]
        simp [create_object, hl, hl2]
      · simp only [create_object, hl]
        rw [load, lookupA_append_none objects _ _ hl]
        simp [lookupA]

/-- Witness for C5 at the empty store and `b = [1, 2, 3]`. -/
theorem create_object_spec_witness :
    (∀ e ∈ ([] : Store), e.1 = sha256 [1, 2, 3] → e.2 = [1, 2, 3])
    ∧ load (create_object [] [1, 2, 3]).1 (create_object [] [1, 2, 3]).2 = some [1, 2, 3] :=
  ⟨by simp, (create_object_spec [] [1, 2, 3] (by simp)).2.2.2.2⟩

/-! ### Revision resolution (claim C7) -/

theorem takeWhile_eq_filter_of_pairwise {α : Type} (t : Nat) (l : List (Nat × α))
    (h : List.Pairwise (fun a b => a.1 ≤ b.1) l) :
    l.takeWhile (fun e => e.1 < t) = l.filter (fun e => e.1 < t) := by
  induction l with
  | nil => rfl
  | cons a rest ih =>
      have hhead : ∀ b ∈ rest, a.1 ≤ b.1 := fun b hb => (List.pairwise_cons.mp h).1 b hb
      have hrest := (List.pairwise_cons.mp h).2
      by_cases ha : a.1 < t
      · simp [List.takeWhile_cons, List.filter_cons, ha, ih hrest]
      · have hfil : rest.filter (fun e => e.1 < t) = [] := by
          rw [List.filter_eq_nil_iff]
          intro e he
          have := hhead e he
          simp only [decide_eq_true_eq]
          omega
        simp [List.takeWhile_cons, List.filter_cons, ha, hfil]

/-- Claim C7: revision resolution in `Files::get_root`.  For `n` in range,
`FromLatest n` yields the entry at index `len - 1 - n` and `FromEarliest n`
the entry at index `n`; under the history-monotonicity invariant `AsOfTime t`
yields the last entry with timestamp `< t` (as `filter.getLast?`).  Out of
range — including `AsOfTime` with no entry before `t` — the resolution is
`none`: the source `unwrap`s this and panics; no Range error is produced
anywhere (`get_root` carries the comment `TODO: proper handling of no
history errors`). -/
theorem resolveRevision_spec {α : Type} (history : List (Nat × α)) (n : Nat) (t : Nat) :
    (n < history.length →
        resolveRevision history (.FromLatest n) = history.get? (history.length - 1 - n)
      ∧ resolveRevision history (.FromEarliest n) = history.get? n)
    ∧ (history.length ≤ n →
        resolveRevision history (.FromLatest n) = none
      ∧ resolveRevision history (.FromEarliest n) = none)
    ∧ (List.Pairwise (fun a b => a.1 ≤ b.1) history →
        resolveRevision history (.AsOfTime t)
          = (history.filter (fun e => e.1 < t)).getLast?) := by
  refine ⟨?_, ?_, ?_⟩
  · intro hn
    constructor
    · simp only [resolveRevision]
      rw [List.get?_eq_getElem?, List.get?_eq_getElem?,
        List.getElem?_reverse (by simpa using hn)]
    · rfl
  · intro hn
    constructor
    · simp only [resolveRevision]
      rw [List.get?_eq_none]
      simpa using hn
    · simp only [resolveRevision]
      rw [List.get?_eq_none]
      exact hn
  · intro hs
    simp only [resolveRevision]
    rw [takeWhile_eq_filter_of_pairwise t history hs]

/-- Witness for C7 on the two-entry history `[(5, 0), (7, 0)]`: `FromLatest 1`
is the entry at index 0, `FromEarliest 1` the entry at index 1, `AsOfTime 6`
the last entry before time 6, and the out-of-range `FromLatest 2` resolves to
`none` (the panic). -/
theorem resolveRevision_spec_witness :
    resolveRevision [(5, 0), (7, 0)] (.FromLatest 1) = List.get? [(5, (0 : Nat)), (7, 0)] 0
    ∧ resolveRevision [(5, 0), (7, 0)] (.FromEarliest 1) = List.get? [(5, (0 : Nat)), (7, 0)] 1
    ∧ resolveRevision [(5, 0), (7, 0)] (.AsOfTime 6)
        = (List.filter (fun e => e.1 < 6) [(5, (0 : Nat)), (7, 0)]).getLast?
    ∧ resolveRevision [(5, 0), (7, 0)] (.FromLatest 2) = none := by
  have h1 := (resolveRevision_spec [(5, (0 : Nat)), (7, 0)] 1 6).1 (by decide)
  have h2 := (resolveRevision_spec [(5, (0 : Nat)), (7, 0)] 1 6).2.2 (by decide)
  have h3 := (resolveRevision_spec [(5, (0 : Nat)), (7, 0)] 2 6).2.1 (by decide)
  exact ⟨h1.1, h1.2, h2, h3.1⟩

/-! ### RPC session (claims C2, C3) -/

/-- Claim C2 counterexample: in the awaiting-identify state the method table
is exactly `["IDENTIFY"]`; when `verify_client` returns `Ok(false)` the
handler returns the `InvalidData` error, but the table is **not** unchanged:
`Identify::call` deregisters `IDENTIFY` before verifying, so the table ends
empty rather than still containing `IDENTIFY`. -/
theorem identify_counterexample :
    (identifyCall (.ok false) ["IDENTIFY"]).1 = []
    ∧ (identifyCall (.ok false) ["IDENTIFY"]).2 = .error .InvalidData
    ∧ ([] : List String) ≠ ["IDENTIFY"] := by
  refine ⟨by decide, by decide, by decide⟩

/-- Claim C2 (amended): when `verify_client k` does not return `Ok(true)`,
`IDENTIFY` fails — with `InvalidData` when the result was `Ok(false)`, with
the propagated error otherwise — and none of the filesystem methods are
registered; but the method table does not remain `["IDENTIFY"]`: `IDENTIFY`
was deregistered before verification, so the table ends empty and the
session can never authenticate. -/
theorem identify_failure_spec (r : Except Err Bool) (h : r ≠ .ok true) :
    (identifyCall r ["IDENTIFY"]).1 = []
    ∧ (∃ e, (identifyCall r ["IDENTIFY"]).2 = .error e)
    ∧ (r = .ok false → (identifyCall r ["IDENTIFY"]).2 = .error .InvalidData)
    ∧ (∀ name ∈ fsMethodNames, name ∉ (identifyCall r ["IDENTIFY"]).1) := by
  cases r with
  | ok b =>
      cases b with
      | true => exact absurd rfl h
      | false =>
          refine ⟨by decide, ⟨.InvalidData, by decide⟩, fun _ => by decide, ?_⟩
          intro name _
          simp [identifyCall, List.erase]
  | error e =>
      refine ⟨by simp [identifyCall, List.erase], ⟨e, by simp [identifyCall]⟩,
        ?_, ?_⟩
      · intro hh
        exact absurd hh (by simp)
      · intro name _
        simp [identifyCall, List.erase]

/-- Witness for C2 (amended) at `verify_client` returning `Ok(false)`. -/
theorem identify_failure_spec_witness :
    ((Except.ok false : Except Err Bool) ≠ .ok true)
    ∧ (identifyCall (.ok false) ["IDENTIFY"]).1 = []
    ∧ (identifyCall (.ok false) ["IDENTIFY"]).2 = .error .InvalidData :=
  ⟨by simp, (identify_failure_spec (.ok false) (by simp)).1,
    (identify_failure_spec (.ok false) (by simp)).2.2.1 rfl⟩

/-- Claim C3 counterexample: with a dispatcher that fails on method `NOPE`
and succeeds on `GET`, a connection that sends `NOPE` then `GET` gets only
the single `ERR` frame and a non-clean close — the loop does **not**
continue to the next request, which would have produced
`[ERR, OK]` and a clean EOF close. -/
theorem connLoop_counterexample :
    connLoop
        (fun (s : Unit) (p : Packet) =>
          (s, if p.method = "GET" then .ok [] else .error "invalid method"))
        () [.packet ⟨"NOPE", []⟩, .packet ⟨"GET", []⟩]
      = ([.errF "invalid method"], false)
    ∧ ([Frame.errF "invalid method"], false)
      ≠ ([Frame.errF "invalid method", Frame.okF []], true) := by
  refine ⟨by decide, by decide⟩

/-- Claim C3 (amended): the request loop of `Server::run` writes an `ERR`
frame for a failed dispatch and then **closes the connection** (the handler
task returns the error); the remaining requests are never read.  Only a
successful dispatch continues the loop; EOF closes cleanly; a protocol-fatal
read error closes without writing anything. -/
theorem connLoop_spec {σ : Type} (dispatch : σ → Packet → σ × Except String (List Nat))
    (s : σ) (p : Packet) (rest : List ReadEvent) :
    connLoop dispatch s [] = ([], true)
    ∧ connLoop dispatch s (.fatal :: rest) = ([], false)
    ∧ (∀ e s2, dispatch s p = (s2, .error e) →
        connLoop dispatch s (.packet p :: rest) = ([.errF e], false))
    ∧ (∀ d s2, dispatch s p = (s2, .ok d) →
        connLoop dispatch s (.packet p :: rest)
          = (.okF d :: (connLoop dispatch s2 rest).1, (connLoop dispatch s2 rest).2)) := by
  refine ⟨rfl, rfl, ?_, ?_⟩
  · intro e s2 hd
    simp [connLoop, hd]
  · intro d s2 hd
    simp [connLoop, hd]

/-- Witness for C3 (amended): a concrete failing dispatch yields the single
`ERR` frame and a closed connection. -/
theorem connLoop_spec_witness :
    (fun (s : Unit) (_ : Packet) => (s, (Except.error "x" : Except String (List Nat)))) ()
        ⟨"A", []⟩ = ((), .error "x")
    ∧ connLoop (fun (s : Unit) (_ : Packet) => (s, (Except.error "x" : Except String (List Nat))))
        () [.packet ⟨"A", []⟩, .packet ⟨"B", []⟩] = ([.errF "x"], false) :=
  ⟨rfl,
    (connLoop_spec (fun (s : Unit) _ => (s, .error "x")) () ⟨"A", []⟩
      [.packet ⟨"B", []⟩]).2.2.1 "x" () rfl⟩

/-! ### Sync decision table (claim C8) -/

/-- Claim C8 counterexample: the remote tree has a *directory* at `d`; a
local file exists there.  The claim says a remote `Dir` is treated as "no
remote file", so the live local file would be uploaded; the code instead
classifies it `Deleted` and deletes the local copy. -/
theorem resyncDecision_counterexample :
    resyncDecision (.dir [("d", .dir [] 3)] 0) ["d"] true [1] 5 = .ok .deleteLocal
    ∧ SyncAction.deleteLocal ≠ .upload := by
  refine ⟨by decide, by decide⟩

/-- Claim C8 (amended): the sync client's per-file decision
(`compare` + `resync_file`) equals the decision table in which an absent
remote path (including one cut off by a missing ancestor) means upload, a
remote directory is treated **like a tombstone** (delete the local copy when
one exists, else no-op), and two live files with differing SHA-256 hashes
upload iff the local mtime is strictly greater than the remote timestamp
truncated to `u64`, otherwise fetch (server wins ties). -/
theorem resyncDecision_eq_specDecision (root : Node) (p : List String) (localExists : Bool)
    (localData : List Nat) (localMtime : Nat) :
    resyncDecision root p localExists localData localMtime
      = specDecision root p localExists localData localMtime := by
  unfold resyncDecision SyncClient.compare specDecision
  cases htr : traverseN root p with
  | error e => simp [Except.map]
  | ok v =>
      cases v with
      | none => simp [Except.map, FileStatus.action]
      | some n =>
          cases n with
          | dir cs ts =>
              cases localExists <;>
                simp [Node.dataIsNone, Node.isDir, Node.kind, Except.map, FileStatus.action]
          | tomb ts =>
              cases localExists <;>
                simp [Node.dataIsNone, Node.isDir, Node.kind, Except.map, FileStatus.action]
          | file o ts =>
              cases localExists with
              | false =>
                  simp [Node.dataIsNone, Node.isDir, Node.kind, Except.map, FileStatus.action]
              | true =>
                  simp only [Node.dataIsNone, Node.isDir, Node.kind, Node.fileObj,
                    Node.timestamp, Bool.or_self, Bool.false_or, Bool.or_false, if_false,
                    Bool.not_true, ite_false, ite_true]
                  by_cases hh : (sha256 localData == o.hash) = true
                  · simp [hh, Except.map, FileStatus.action]
                  · by_cases hm : localMtime > ts % 18446744073709551616
                    · simp [hh, hm, Except.map, FileStatus.action]
                    · simp [hh, hm, Except.map, FileStatus.action]

/-! ### Tree deletion (claim C6) -/

/-- Claim C6 counterexample: the file at `a` was created at time 5 and is
deleted while the clock reads 7.  The claim says the tombstone's timestamp is
updated to `now()` (= 7); `Node::delete` of src/files/node.rs only clears
`data` and leaves the timestamp at 5. -/
theorem delete_counterexample :
    kindAfter (NodeRs.delete (.dir [("a", .file ⟨[1]⟩ 5)] 0) ["a"]) ["a"]
      = .ok (some (.tombK 5))
    ∧ Kind.tombK 5 ≠ .tombK 7 := by
  refine ⟨by decide, by decide⟩

/-- Claim C6 (amended): `Node::delete` (src/files/node.rs) replaces the node
at an existing path with a tombstone whose timestamp is the node's **old**
timestamp (the timestamp is not refreshed to `now()`), and fails with
`NotFound` when the traversal finds no node at the path. -/
theorem delete_spec (t : Node) (p : List String) :
    (∀ n, traverseN t p = .ok (some n) →
        ∃ t2, NodeRs.delete t p = .ok t2 ∧ kindAt t2 p = .ok (some (.tombK n.timestamp)))
    ∧ (traverseN t p = .ok none → NodeRs.delete t p = .error .NotFound) := by
  constructor
  · intro n hn
    obtain ⟨t2, htm, hat, _, _, _⟩ :=
      traverseModify_spec p (fun n => .ok (.tomb n.timestamp)) t n (.tomb n.timestamp) hn rfl
    refine ⟨t2, ?_, ?_⟩
    · simp [NodeRs.delete, htm]
    · simp [kindAt, hat, Node.kind, Except.map]
  · intro hn
    simp [NodeRs.delete, traverseModify_none p _ t hn]

/-- Witness for C6 (amended) on a one-file tree and on a missing path. -/
theorem delete_spec_witness :
    traverseN (.dir [("a", .file ⟨[1]⟩ 5)] 0) ["a"] = .ok (some (.file ⟨[1]⟩ 5))
    ∧ (∃ t2, NodeRs.delete (.dir [("a", .file ⟨[1]⟩ 5)] 0) ["a"] = .ok t2
        ∧ kindAt t2 ["a"] = .ok (some (.tombK 5)))
    ∧ NodeRs.delete (.dir [("a", .file ⟨[1]⟩ 5)] 0) ["zz"] = .error .NotFound := by
  refine ⟨rfl, ?_, ?_⟩
  · exact (delete_spec (.dir [("a", .file ⟨[1]⟩ 5)] 0) ["a"]).1 (.file ⟨[1]⟩ 5) rfl
  · exact (delete_spec (.dir [("a", .file ⟨[1]⟩ 5)] 0) ["zz"]).2 rfl

/-! ### Node::insert of src/files/node.rs (claim C10) -/

/-- Claim C10: for a non-root path whose parent is a directory containing the
target name, `Node::insert` (src/files/node.rs) returns `IsADirectory` when
that existing child is a directory (and, the embedding being pure, the tree
is unchanged — the source errors before any mutation), while an existing
file or tombstone child is replaced by `File(object)` stamped `now`. -/
theorem insert_nodeRs_spec (t : Node) (parent : List String) (name : String)
    (cs : List (String × Node)) (ts : Nat) (c : Node) (o : Object) (now : Nat)
    (hpar : traverseN t parent = .ok (some (.dir cs ts)))
    (hchild : lookupA cs name = some c) :
    (c.isDir = true → NodeRs.insert t (parent ++ [name]) o now = .error .IsADirectory)
    ∧ (c.isDir = false →
        ∃ t2, NodeRs.insert t (parent ++ [name]) o now = .ok t2
          ∧ traverseN t2 (parent ++ [name]) = .ok (some (.file o now))) := by
  constructor
  · intro hdir
    have hferr := traverseModify_ferr parent
      (fun n =>
        match n with
        | .dir cs2 ts2 =>
            match lookupA cs2 name with
            | some c2 =>
                if c2.isDir then .error .IsADirectory
                else .ok (.dir (insertA cs2 name (.file o now)) ts2)
            | none => .ok (.dir (insertA cs2 name (.file o now)) ts2)
        | _ => .error .NotADirectory)
      t (.dir cs ts) .IsADirectory hpar (by simp [hchild, hdir])
    unfold NodeRs.insert
    rw [List.getLast?_concat, List.dropLast_concat]
    simp only [hferr]
  · intro hdir
    obtain ⟨t2, htm, hat, _, _, _⟩ := traverseModify_spec parent
      (fun n =>
        match n with
        | .dir cs2 ts2 =>
            match lookupA cs2 name with
            | some c2 =>
                if c2.isDir then .error .IsADirectory
                else .ok (.dir (insertA cs2 name (.file o now)) ts2)
            | none => .ok (.dir (insertA cs2 name (.file o now)) ts2)
        | _ => .error .NotADirectory)
      t (.dir cs ts) (.dir (insertA cs name (.file o now)) ts) hpar
      (by simp [hchild, hdir])
    refine ⟨t2, ?_, ?_⟩
    · unfold NodeRs.insert
      rw [List.getLast?_concat, List.dropLast_concat]
      simp only [htm]
    · rw [traverseN_append, hat]
      simp [traverseN, lookupA_insertA_self]

/-- Witness for C10 on a tree whose root holds a directory `a` and a file
`b`: inserting over `a` fails `IsADirectory`, inserting over `b` replaces the
file. -/
theorem insert_nodeRs_spec_witness :
    traverseN (.dir [("a", .dir [] 1), ("b", .file ⟨[2]⟩ 1)] 0) []
        = .ok (some (.dir [("a", .dir [] 1), ("b", .file ⟨[2]⟩ 1)] 0))
    ∧ NodeRs.insert (.dir [("a", .dir [] 1), ("b", .file ⟨[2]⟩ 1)] 0) ["a"] ⟨[9]⟩ 7
        = .error .IsADirectory
    ∧ (∃ t2, NodeRs.insert (.dir [("a", .dir [] 1), ("b", .file ⟨[2]⟩ 1)] 0) ["b"] ⟨[9]⟩ 7
        = .ok t2 ∧ traverseN t2 ["b"] = .ok (some (.file ⟨[9]⟩ 7))) := by
  refine ⟨rfl, ?_, ?_⟩
  · exact (insert_nodeRs_spec (.dir [("a", .dir [] 1), ("b", .file ⟨[2]⟩ 1)] 0) [] "a"
      [("a", .dir [] 1), ("b", .file ⟨[2]⟩ 1)] 0 (.dir [] 1) ⟨[9]⟩ 7 rfl rfl).1 rfl
  · exact (insert_nodeRs_spec (.dir [("a", .dir [] 1), ("b", .file ⟨[2]⟩ 1)] 0) [] "b"
      [("a", .dir [] 1), ("b", .file ⟨[2]⟩ 1)] 0 (.file ⟨[2]⟩ 1) ⟨[9]⟩ 7 rfl rfl).2 rfl

/-! ### Node::insert of src/files.rs (claim C9) -/

/-- Claim C9 counterexample: the tree holds a *file* at `a`, so the parent of
`a/b` exists (it is not absent) — yet `Node::insert` (src/files.rs) does not
place `File(o)` there: `insert_child` fails with `NotADirectory`. -/
theorem insert_filesRs_counterexample :
    FilesRs.insert (.dir [("a", .file ⟨[1]⟩ 1)] 0) ["a", "b"] ⟨[2]⟩ 9
      = .error .NotADirectory
    ∧ isOkE (FilesRs.insert (.dir [("a", .file ⟨[1]⟩ 1)] 0) ["a", "b"] ⟨[2]⟩ 9) = false := by
  refine ⟨rfl, rfl⟩

/-- Claim C9 (amended): `Node::insert` (src/files.rs) fails `InvalidFilename`
on the root path; fails `NotFound` when the parent path is absent; when the
parent exists **as a directory** it places `File(o)` (stamped `now`) as the
child named by the last component — replacing any existing child, a
directory included; and when the parent exists but is not a directory it
fails `NotADirectory` instead of placing the file. -/
theorem insert_filesRs_spec (t : Node) (parent : List String) (name : String)
    (o : Object) (now : Nat) :
    FilesRs.insert t [] o now = .error .InvalidFilename
    ∧ (traverseN t parent = .ok none →
        FilesRs.insert t (parent ++ [name]) o now = .error .NotFound)
    ∧ (∀ cs ts, traverseN t parent = .ok (some (.dir cs ts)) →
        ∃ t2, FilesRs.insert t (parent ++ [name]) o now = .ok t2
          ∧ traverseN t2 (parent ++ [name]) = .ok (some (.file o now)))
    ∧ (∀ n, traverseN t parent = .ok (some n) → n.isDir = false →
        FilesRs.insert t (parent ++ [name]) o now = .error .NotADirectory) := by
  refine ⟨rfl, ?_, ?_, ?_⟩
  · intro hn
    unfold FilesRs.insert
    rw [List.getLast?_concat, List.dropLast_concat]
    simp only [traverseModify_none parent _ t hn]
  · intro cs ts hpar
    obtain ⟨t2, htm, hat, _, _, _⟩ := traverseModify_spec parent
      (fun n =>
        match n with
        | .dir cs2 ts2 => .ok (.dir (insertA cs2 name (.file o now)) ts2)
        | _ => .error .NotADirectory)
      t (.dir cs ts) (.dir (insertA cs name (.file o now)) ts) hpar (by simp)
    refine ⟨t2, ?_, ?_⟩
    · unfold FilesRs.insert
      rw [List.getLast?_concat, List.dropLast_concat]
      simp only [htm]
    · rw [traverseN_append, hat]
      simp [traverseN, lookupA_insertA_self]
  · intro n hpar hnd
    have hferr := traverseModify_ferr parent
      (fun n =>
        match n with
        | .dir cs2 ts2 => .ok (.dir (insertA cs2 name (.file o now)) ts2)
        | _ => .error .NotADirectory)
      t n .NotADirectory hpar (by cases n <;> simp [Node.isDir] at hnd ⊢)
    unfold FilesRs.insert
    rw [List.getLast?_concat, List.dropLast_concat]
    simp only [hferr]

/-- Witness for C9 (amended) on a tree with a directory `d`: root insert
fails `InvalidFilename`, a missing parent fails `NotFound`, insert under `d`
succeeds. -/
theorem insert_filesRs_spec_witness :
    FilesRs.insert (.dir [("d", .dir [] 1)] 0) [] ⟨[2]⟩ 9 = .error .InvalidFilename
    ∧ FilesRs.insert (.dir [("d", .dir [] 1)] 0) (["zz"] ++ ["x"]) ⟨[2]⟩ 9
        = .error .NotFound
    ∧ (∃ t2, FilesRs.insert (.dir [("d", .dir [] 1)] 0) (["d"] ++ ["x"]) ⟨[2]⟩ 9 = .ok t2
        ∧ traverseN t2 (["d"] ++ ["x"]) = .ok (some (.file ⟨[2]⟩ 9))) := by
  refine ⟨(insert_filesRs_spec (.dir [("d", .dir [] 1)] 0) [] "q" ⟨[2]⟩ 9).1, ?_, ?_⟩
  · exact (insert_filesRs_spec (.dir [("d", .dir [] 1)] 0) ["zz"] "x" ⟨[2]⟩ 9).2.1 rfl
  · exact (insert_filesRs_spec (.dir [("d", .dir [] 1)] 0) ["d"] "x" ⟨[2]⟩ 9).2.2.1 [] 1 rfl

/-! ### verify_client (claim C4) -/

/-- Claim C4 counterexample: a keyring whose admin and server keys are in
place (and verify) but with no `/trusted/client` entry.  The claim says that
when the existence conjunct fails `verify_client` returns `false`; the code
instead propagates the `NotFound` error from `get_key`. -/
theorem verify_client_counterexample :
    verify_client
        (.dir [("self", .dir [("admin", .file ⟨[0]⟩ 1), ("server", .file ⟨[1]⟩ 1)] 1),
               ("trusted", .dir [] 1)] 0)
        (fun o =>
          if o.hash = [0] then some ⟨.Public [7], "admin", none⟩
          else if o.hash = [1] then some ⟨.Public [8], "server", some [9]⟩
          else none)
        (fun _ _ _ => true) (fun _ => [])
        ⟨.Public [8], "client", none⟩
      = .error .NotFound
    ∧ (Except.error Err.NotFound : Except Err Bool) ≠ .ok false := by
  refine ⟨by decide, by decide⟩

/-- Claim C4 (amended): assuming the server key loads (`get_server_key`
succeeds — admin and server keys present and the server key admin-signed),
`verify_client k` returns `Ok(b)` where `b` is true iff the key stored at
`/trusted/client` carries a signature that verifies under the server key
over the canonical serialization of its `kind` AND its raw public-key bytes
equal `k`'s raw public-key bytes — so either failing check gives `Ok(false)`.
When `/trusted/client` is absent (or fails to load), `verify_client`
propagates the **error** instead of returning false. -/
theorem verify_client_spec (keyring : Node) (decodeKey : Object → Option Key)
    (ed25519 : List Nat → List Nat → List Nat → Bool) (pkcs8pub : List Nat → List Nat)
    (serverKey presented : Key)
    (hs : get_server_key keyring decodeKey ed25519 pkcs8pub = .ok serverKey) :
    (∀ e, get_key keyring decodeKey ["trusted", "client"] = .error e →
        verify_client keyring decodeKey ed25519 pkcs8pub presented = .error e)
    ∧ (∀ clientKey, get_key keyring decodeKey ["trusted", "client"] = .ok clientKey →
        verify_client keyring decodeKey ed25519 pkcs8pub presented
          = .ok ((match clientKey.signature with
                  | some s => ed25519 ((serverKey.pub_key pkcs8pub).raw)
                      (encodeKind clientKey.kind) s
                  | none => false)
              && ((clientKey.pub_key pkcs8pub).raw == (presented.pub_key pkcs8pub).raw))) := by
  constructor
  · intro e he
    simp [verify_client, hs, he, Bind.bind, Except.bind]
  · intro ck hck
    cases hsig : ck.signature with
    | some s => simp [verify_client, hs, hck, Key.verify, hsig, Bind.bind, Except.bind]
    | none => simp [verify_client, hs, hck, Key.verify, hsig, Bind.bind, Except.bind]

/-- Witness for C4 (amended) on a fully configured keyring holding a trusted
client key whose raw public bytes match the presented key. -/
theorem verify_client_spec_witness :
    get_server_key
        (.dir [("self", .dir [("admin", .file ⟨[0]⟩ 1), ("server", .file ⟨[1]⟩ 1)] 1),
               ("trusted", .dir [("client", .file ⟨[2]⟩ 1)] 1)] 0)
        (fun o =>
          if o.hash = [0] then some ⟨.Public [7], "admin", none⟩
          else if o.hash = [1] then some ⟨.Public [8], "server", some [9]⟩
          else if o.hash = [2] then some ⟨.Public [3], "client", some [4]⟩
          else none)
        (fun _ _ _ => true) (fun _ => [])
      = .ok ⟨.Public [8], "server", some [9]⟩
    ∧ verify_client
        (.dir [("self", .dir [("admin", .file ⟨[0]⟩ 1), ("server", .file ⟨[1]⟩ 1)] 1),
               ("trusted", .dir [("client", .file ⟨[2]⟩ 1)] 1)] 0)
        (fun o =>
          if o.hash = [0] then some ⟨.Public [7], "admin", none⟩
          else if o.hash = [1] then some ⟨.Public [8], "server", some [9]⟩
          else if o.hash = [2] then some ⟨.Public [3], "client", some [4]⟩
          else none)
        (fun _ _ _ => true) (fun _ => [])
        ⟨.Public [3], "presented", none⟩
      = .ok true := by
  constructor
  · rfl
  · have h := verify_client_spec
      (.dir [("self", .dir [("admin", .file ⟨[0]⟩ 1), ("server", .file ⟨[1]⟩ 1)] 1),
             ("trusted", .dir [("client", .file ⟨[2]⟩ 1)] 1)] 0)
      (fun o =>
        if o.hash = [0] then some ⟨.Public [7], "admin", none⟩
        else if o.hash = [1] then some ⟨.Public [8], "server", some [9]⟩
        else if o.hash = [2] then some ⟨.Public [3], "client", some [4]⟩
        else none)
      (fun _ _ _ => true) (fun _ => [])
      ⟨.Public [8], "server", some [9]⟩ ⟨.Public [3], "presented", none⟩ rfl
    rw [h.2 ⟨.Public [3], "client", some [4]⟩ rfl]
    decide

/-! ### Path and presence lemmas for the merge development -/

theorem Anc_append (a r : List String) : Anc a (a ++ r) := ⟨r, rfl⟩

theorem Anc_trans {a b c : List String} (h1 : Anc a b) (h2 : Anc b c) : Anc a c := by
  obtain ⟨r1, hr1⟩ := h1
  obtain ⟨r2, hr2⟩ := h2
  exact ⟨r1 ++ r2, by rw [← List.append_assoc, hr1, hr2]⟩

theorem Anc_take (l : List String) (k : Nat) : Anc (l.take k) l :=
  ⟨l.drop k, List.take_append_drop k l⟩

theorem concat_split (q : List String) (c : String) (h : q.getLast? = some c) :
    q.dropLast ++ [c] = q := by
  induction q with
  | nil => simp at h
  | cons a rest ih =>
      cases rest with
      | nil =>
          simp at h
          simp [h]
      | cons b rest2 =>
          have h2 : (b :: rest2).getLast? = some c := by
            rw [← h, List.getLast?_cons_cons]
          have := ih h2
          simp only [List.dropLast_cons₂, List.cons_append, this]

theorem Anc_append_cancel (x u v : List String) : Anc (x ++ u) (x ++ v) ↔ Anc u v := by
  induction x with
  | nil => simp
  | cons a rest ih => simpa [Anc_cons_iff] using ih

theorem Anc_branch_sep {x : List String} {a b : String} {p s : List String}
    (hab : a ≠ b) (hp : Anc (x ++ [a]) p) (hs : Anc (x ++ [b]) s) : ¬ Anc p s := by
  intro hps
  obtain ⟨r1, hr1⟩ := hp
  obtain ⟨r2, hr2⟩ := hs
  obtain ⟨r3, hr3⟩ := hps
  rw [← hr1, ← hr2] at hr3
  have hx : x ++ ([a] ++ (r1 ++ r3)) = x ++ ([b] ++ r2) := by
    simpa [List.append_assoc] using hr3
  have : ([a] ++ (r1 ++ r3)) = [b] ++ r2 := by
    exact List.append_cancel_left hx
  simp at this
  exact hab this.1

theorem present_prefix (t : Node) (a b : List String) (c : Node)
    (h : traverseN t (a ++ b) = .ok (some c)) : ∃ m, traverseN t a = .ok (some m) := by
  have happ := traverseN_append a b t
  rw [h] at happ
  cases ht : traverseN t a with
  | ok v =>
      cases v with
      | some m => exact ⟨m, rfl⟩
      | none => rw [ht] at happ; simp at happ
  | error e => rw [ht] at happ; simp at happ

theorem present_decomp (t : Node) (a : List String) (x : String) (c : Node)
    (h : traverseN t (a ++ [x]) = .ok (some c)) :
    ∃ cs ts, traverseN t a = .ok (some (.dir cs ts)) ∧ lookupA cs x = some c := by
  have happ := traverseN_append a [x] t
  rw [h] at happ
  cases ht : traverseN t a with
  | ok v =>
      cases v with
      | some m =>
          rw [ht] at happ
          cases m with
          | dir cs ts =>
              simp only [traverseN] at happ
              cases hcl : lookupA cs x with
              | some child =>
                  rw [hcl] at happ
                  simp only [traverseN, Except.ok.injEq, Option.some.injEq] at happ
                  exact ⟨cs, ts, rfl, by simp [hcl, happ]⟩
              | none => rw [hcl] at happ; simp at happ
          | file o ts => simp [traverseN] at happ
          | tomb ts => simp [traverseN] at happ
      | none => rw [ht] at happ; simp at happ
  | error e => rw [ht] at happ; simp at happ

theorem kindAt_file_iff (t : Node) (p : List String) (o : Object) (ts : Nat) :
    kindAt t p = .ok (some (.fileK o ts)) ↔ traverseN t p = .ok (some (.file o ts)) := by
  unfold kindAt
  cases h : traverseN t p with
  | ok v =>
      cases v with
      | some n => cases n <;> simp [Node.kind, Except.map]
      | none => simp [Except.map]
  | error e => simp [Except.map]

theorem kindAt_tomb_iff (t : Node) (p : List String) (ts : Nat) :
    kindAt t p = .ok (some (.tombK ts)) ↔ traverseN t p = .ok (some (.tomb ts)) := by
  unfold kindAt
  cases h : traverseN t p with
  | ok v =>
      cases v with
      | some n => cases n <;> simp [Node.kind, Except.map]
      | none => simp [Except.map]
  | error e => simp [Except.map]

theorem kindAt_none_iff (t : Node) (p : List String) :
    kindAt t p = .ok none ↔ traverseN t p = .ok none := by
  unfold kindAt
  cases h : traverseN t p with
  | ok v =>
      cases v with
      | some n => simp [Except.map]
      | none => simp [Except.map]
  | error e => simp [Except.map]

theorem kindAt_some_inv (t : Node) (p : List String) (k : Kind)
    (h : kindAt t p = .ok (some k)) :
    ∃ n, traverseN t p = .ok (some n) ∧ n.kind = k := by
  unfold kindAt at h
  cases ht : traverseN t p with
  | ok v =>
      cases v with
      | some n =>
          rw [ht] at h
          simp only [Except.map, Option.map, Except.ok.injEq, Option.some.injEq] at h
          exact ⟨n, rfl, h⟩
      | none => rw [ht] at h; simp [Except.map] at h
  | error e => rw [ht] at h; simp [Except.map] at h

theorem kindAt_of_traverseN (t : Node) (p : List String) (n : Node)
    (h : traverseN t p = .ok (some n)) : kindAt t p = .ok (some n.kind) := by
  simp [kindAt, h, Except.map]

/-! ### Effect of make_dir -/

theorem Anc_concat_cases {p x : List String} {a : String} (h : Anc p (x ++ [a])) :
    p = x ++ [a] ∨ Anc p x := by
  obtain ⟨r, hr⟩ := h
  rcases List.eq_nil_or_concat r with hnil | ⟨r2, b, hc⟩
  · left
    rw [← hr, hnil, List.append_nil]
  · right
    subst hc
    have hd := congrArg List.dropLast hr
    rw [List.concat_eq_append, ← List.append_assoc] at hd
    simp only [List.dropLast_concat] at hd
    exact ⟨r2, hd⟩

theorem makeDir_noop (t : Node) (r : List String) (now : Nat) (c : Node)
    (h : traverseN t r = .ok (some c)) : FilesRs.makeDir t r now = .ok t := by
  cases hr : r.getLast? with
  | none =>
      unfold FilesRs.makeDir
      rw [hr]
  | some name =>
      have hsplit : r.dropLast ++ [name] = r := concat_split r name hr
      obtain ⟨cs, ts, hpar, hcl⟩ :=
        present_decomp t r.dropLast name c (by rw [hsplit]; exact h)
      have hf : FilesRs.makeDirF name now (.dir cs ts) = .ok (.dir cs ts) := by
        simp [FilesRs.makeDirF, hcl]
      obtain ⟨t2, htm, _, _, _, hnoop⟩ :=
        traverseModify_spec r.dropLast (FilesRs.makeDirF name now) t
          (.dir cs ts) (.dir cs ts) hpar hf
      have ht2 : t2 = t := hnoop rfl
      unfold FilesRs.makeDir
      rw [hr]
      simp only [htm, ht2]

theorem makeDir_spec (t : Node) (r : List String) (now : Nat) (t2 : Node)
    (h : FilesRs.makeDir t r now = .ok t2) :
    ∀ p, traverseN t2 p = traverseN t p
      ∨ (p = r ∧ r ≠ [] ∧ traverseN t r = .ok none
          ∧ traverseN t2 r = .ok (some (.dir [] now)))
      ∨ (Anc p r ∧ p ≠ r ∧ kindAt t2 p = kindAt t p) := by
  cases hr : r.getLast? with
  | none =>
      unfold FilesRs.makeDir at h
      rw [hr] at h
      have ht2 : t = t2 := by injection h
      intro p
      left
      rw [← ht2]
  | some name =>
      have hsplit : r.dropLast ++ [name] = r := concat_split r name hr
      have hrne : r ≠ [] := by
        intro hh
        rw [hh] at hr
        simp at hr
      unfold FilesRs.makeDir at h
      rw [hr] at h
      cases htm : traverseModify t r.dropLast (FilesRs.makeDirF name now) with
      | ok v =>
          cases v with
          | some t2' =>
              simp only [htm, Except.ok.injEq] at h
              obtain ⟨m, m2, hm, hf⟩ :=
                traverseModify_ok_inv r.dropLast (FilesRs.makeDirF name now) t t2' htm
              cases m with
              | file o ts => simp [FilesRs.makeDirF] at hf
              | tomb ts => simp [FilesRs.makeDirF] at hf
              | dir cs ts =>
                  cases hcl : lookupA cs name with
                  | some c0 =>
                      have hf2 : FilesRs.makeDirF name now (.dir cs ts) = .ok (.dir cs ts) := by
                        simp [FilesRs.makeDirF, hcl]
                      obtain ⟨n2, htm2, _, _, _, hnoop⟩ :=
                        traverseModify_spec r.dropLast (FilesRs.makeDirF name now) t
                          (.dir cs ts) (.dir cs ts) hm hf2
                      rw [htm] at htm2
                      simp only [Except.ok.injEq, Option.some.injEq] at htm2
                      have ht2 : t2 = t := by rw [← h, htm2, hnoop rfl]
                      intro p
                      left
                      rw [ht2]
                  | none =>
                      have hf2 : FilesRs.makeDirF name now (.dir cs ts)
                          = .ok (.dir (insertA cs name (.dir [] now)) ts) := by
                        simp [FilesRs.makeDirF, hcl]
                      obtain ⟨n2, htm2, hat, hfr, hanc, _⟩ :=
                        traverseModify_spec r.dropLast (FilesRs.makeDirF name now) t
                          (.dir cs ts) (.dir (insertA cs name (.dir [] now)) ts) hm hf2
                      rw [htm] at htm2
                      simp only [Except.ok.injEq, Option.some.injEq] at htm2
                      have ht2 : t2 = n2 := by rw [← h, htm2]
                      subst ht2
                      -- absent: r is created
                      have htr_none : traverseN t r = .ok none := by
                        rw [← hsplit, traverseN_append, hm]
                        simp [traverseN, hcl]
                      have htr2_r : traverseN t2 r = .ok (some (.dir [] now)) := by
                        rw [← hsplit, traverseN_append, hat]
                        simp [traverseN, lookupA_insertA_self]
                      intro p
                      by_cases hdp : Anc r.dropLast p
                      · obtain ⟨rest, hrest⟩ := hdp
                        cases rest with
                        | nil =>
                            -- p = r.dropLast
                            right; right
                            rw [List.append_nil] at hrest
                            subst hrest
                            refine ⟨⟨[name], hsplit⟩, ?_, ?_⟩
                            · intro hh
                              rw [hh] at hsplit
                              have := congrArg List.length hsplit
                              simp at this
                            · rw [kindAt_of_traverseN _ _ _ hat, kindAt_of_traverseN _ _ _ hm]
                              simp [Node.kind]
                        | cons c0 rest2 =>
                            subst hrest
                            by_cases hc0 : c0 = name
                            · subst hc0
                              cases rest2 with
                              | nil =>
                                  -- p = r
                                  right; left
                                  exact ⟨hsplit, hrne, htr_none, htr2_r⟩
                              | cons c1 rest3 =>
                                  -- p strictly beyond r: absent on both sides
                                  left
                                  rw [traverseN_append, hat, traverseN_append, hm]
                                  simp [traverseN, lookupA, lookupA_insertA_self, hcl]
                            · -- diverges from r at the last component
                              left
                              rw [traverseN_append, hat, traverseN_append, hm]
                              simp only [traverseN]
                              rw [lookupA_insertA_ne cs name c0 _ hc0]
                      · by_cases hpd : Anc p r.dropLast
                        · -- p a strict ancestor of r.dropLast (p = r.dropLast is in hdp)
                          right; right
                          have hne : p ≠ r.dropLast := by
                            intro hh
                            exact hdp (hh ▸ Anc_self p)
                          refine ⟨Anc_trans hpd ⟨[name], hsplit⟩, ?_, hanc p hpd hne⟩
                          intro hh
                          subst hh
                          exact hdp (Anc_trans ⟨[name], hsplit⟩ (False.elim (hdp ⟨[name], hsplit⟩)))
                        · left
                          exact hfr p hdp hpd
          | none =>
              simp [htm] at h
      | error e =>
          simp [htm] at h

/-! ### Effect of make_dir_recursive -/

theorem except_bind_ok_iff {e a b : Type} (m : Except e a) (f : a → Except e b) (z : b) :
    m >>= f = .ok z ↔ ∃ y, m = .ok y ∧ f y = .ok z := by
  cases m with
  | ok y => simp [Bind.bind, Except.bind]
  | error e2 => simp [Bind.bind, Except.bind]

theorem Anc_length {a b : List String} (h : Anc a b) : a.length ≤ b.length := by
  obtain ⟨r, hr⟩ := h
  rw [← hr]
  simp

theorem Anc_length_lt {a b : List String} (h : Anc a b) (hne : a ≠ b) :
    a.length < b.length := by
  obtain ⟨r, hr⟩ := h
  cases r with
  | nil => rw [List.append_nil] at hr; exact absurd hr hne
  | cons x xs => rw [← hr]; simp

theorem kindAt_congr {t1 t2 : Node} {p : List String}
    (h : traverseN t1 p = traverseN t2 p) : kindAt t1 p = kindAt t2 p := by
  unfold kindAt
  rw [h]

theorem makeDir_fold_spec (par : List String) (now : Nat) :
    ∀ (idxs : List Nat) (t t1 : Node),
    (∀ i ∈ idxs, par.take (i + 1) ≠ [] ∧ Anc (par.take (i + 1)) par) →
    idxs.foldlM (fun acc i => FilesRs.makeDir acc (par.take (i + 1)) now) t = .ok t1 →
    ∀ p, traverseN t1 p = traverseN t p
      ∨ (p ≠ [] ∧ Anc p par ∧ traverseN t p = .ok none
          ∧ kindAt t1 p = .ok (some (.dirK now)))
      ∨ (Anc p par ∧ p ≠ par ∧ kindAt t1 p = kindAt t p) := by
  intro idxs
  induction idxs with
  | nil =>
      intro t t1 _ hfold p
      have ht : t = t1 := by simpa [pure, Except.pure] using hfold
      subst ht
      left; rfl
  | cons i rest ih =>
      intro t t1 hidx hfold p
      rw [List.foldlM_cons, except_bind_ok_iff] at hfold
      obtain ⟨t', hstep, hrest⟩ := hfold
      have hri := hidx i (by simp)
      have hstepSpec := makeDir_spec t (par.take (i + 1)) now t' hstep p
      have hrestSpec := ih t' t1 (fun j hj => hidx j (by simp [hj])) hrest p
      rcases hrestSpec with hu' | ⟨hpne, hanc', hnone', hkind'⟩ | ⟨hanc', hne', hkind'⟩
      · -- rest did not change p
        rcases hstepSpec with hu | ⟨hpr, hrne, hnone, hsome⟩ | ⟨hancr, hner, hkind⟩
        · left; rw [hu', hu]
        · right; left
          subst hpr
          refine ⟨hrne, hri.2, hnone, ?_⟩
          rw [kindAt_congr hu', kindAt_of_traverseN _ _ _ hsome]
          rfl
        · right; right
          refine ⟨Anc_trans hancr hri.2, ?_, by rw [kindAt_congr hu', hkind]⟩
          have h1 := Anc_length_lt hancr hner
          have h2 := Anc_length hri.2
          intro hh
          subst hh
          omega
      · -- rest created a dir at p: p was absent in t'
        rcases hstepSpec with hu | ⟨hpr, hrne, hnone, hsome⟩ | ⟨hancr, hner, hkind⟩
        · right; left
          exact ⟨hpne, hanc', by rw [← hu]; exact hnone', hkind'⟩
        · subst hpr
          rw [hsome] at hnone'
          exact absurd hnone' (by simp)
        · right; left
          have : kindAt t p = .ok none := by
            rw [← hkind, kindAt_none_iff]
            exact hnone'
          exact ⟨hpne, hanc', (kindAt_none_iff t p).mp this, hkind'⟩
      · -- rest kept the kind at p (spine)
        rcases hstepSpec with hu | ⟨hpr, hrne, hnone, hsome⟩ | ⟨hancr, hner, hkind⟩
        · right; right
          exact ⟨hanc', hne', by rw [hkind', kindAt_congr hu]⟩
        · right; left
          subst hpr
          refine ⟨hrne, hanc', hnone, ?_⟩
          rw [hkind', kindAt_of_traverseN _ _ _ hsome]
          rfl
        · right; right
          exact ⟨hanc', hne', by rw [hkind', hkind]⟩

theorem makeDirRecursive_spec (t : Node) (par : List String) (now : Nat) (t1 : Node)
    (h : FilesRs.makeDirRecursive t par now = .ok t1) :
    ∀ p, traverseN t1 p = traverseN t p
      ∨ (p ≠ [] ∧ Anc p par ∧ traverseN t p = .ok none
          ∧ kindAt t1 p = .ok (some (.dirK now)))
      ∨ (Anc p par ∧ p ≠ par ∧ kindAt t1 p = kindAt t p) := by
  refine makeDir_fold_spec par now (List.range par.length) t t1 ?_ h
  intro i hi
  rw [List.mem_range] at hi
  constructor
  · intro hh
    rcases List.take_eq_nil_iff.mp hh with h0 | h0
    · omega
    · rw [h0] at hi; simp at hi
  · exact Anc_take par (i + 1)

theorem makeDir_fold_noop (par : List String) (now : Nat) (t : Node) :
    ∀ (idxs : List Nat),
    (∀ i ∈ idxs, ∃ c, traverseN t (par.take (i + 1)) = .ok (some c)) →
    idxs.foldlM (fun acc i => FilesRs.makeDir acc (par.take (i + 1)) now) t = .ok t := by
  intro idxs
  induction idxs with
  | nil => intro _; rfl
  | cons i rest ih =>
      intro hidx
      obtain ⟨c, hc⟩ := hidx i (by simp)
      rw [List.foldlM_cons, except_bind_ok_iff]
      exact ⟨t, makeDir_noop t (par.take (i + 1)) now c hc,
        ih (fun j hj => hidx j (by simp [hj]))⟩

theorem makeDirRecursive_noop (t : Node) (par : List String) (now : Nat)
    (hpres : ∀ k, ∃ c, traverseN t (par.take k) = .ok (some c)) :
    FilesRs.makeDirRecursive t par now = .ok t := by
  exact makeDir_fold_noop par now t (List.range par.length)
    (fun i _ => hpres (i + 1))

/-! ### Effect of one merge iteration -/

theorem present_mid_dir (t : Node) (a b : List String) (c : Node)
    (h : traverseN t (a ++ b) = .ok (some c)) (hb : b ≠ []) :
    ∃ cs ts, traverseN t a = .ok (some (.dir cs ts)) := by
  cases b with
  | nil => exact absurd rfl hb
  | cons b0 b1 =>
      have heq : a ++ b0 :: b1 = (a ++ [b0]) ++ b1 := by simp
      rw [heq] at h
      obtain ⟨m, hm⟩ := present_prefix t (a ++ [b0]) b1 c h
      obtain ⟨cs, ts, hp, _⟩ := present_decomp t a b0 m hm
      exact ⟨cs, ts, hp⟩

theorem present_take (t : Node) (q : List String) (c : Node)
    (h : traverseN t q = .ok (some c)) :
    ∀ k, ∃ m, traverseN t (q.take k) = .ok (some m) := by
  intro k
  have : q.take k ++ q.drop k = q := List.take_append_drop k q
  exact present_prefix t (q.take k) (q.drop k) c (by rw [this]; exact h)

theorem mergeF_dir_shape (child : String) (tsM : Nat) (cs1 : List (String × Node))
    (ts1 : Nat) :
    ∃ y, FilesRs.mergeF child tsM (.dir cs1 ts1) = .ok (.dir (insertA cs1 child y) ts1)
      ∧ (∀ c1, lookupA cs1 child = some c1 → y = c1.setTs tsM)
      ∧ (lookupA cs1 child = none → y = .tomb tsM) := by
  cases hcl : lookupA cs1 child with
  | some c1 =>
      refine ⟨c1.setTs tsM, by simp [FilesRs.mergeF, hcl], ?_, ?_⟩
      · intro c1' hc1'
        injection hc1' with hh
        rw [hh]
      · intro hh
        exact absurd hh (by simp)
  | none =>
      refine ⟨.tomb tsM, by simp [FilesRs.mergeF, hcl], ?_, ?_⟩
      · intro c1' hc1'
        exact absurd hc1' (by simp)
      · intro _
        rfl

/-- The effect of one `Node::merge` loop iteration on the tree: paths
incomparable with the entry path `q` are untouched; strict ancestors of `q`
keep their kind or are created as directories; a node present at `q` gets its
timestamp refreshed to the merge stamp; an absent `q` becomes a tombstone;
and success forces every strict ancestor of `q` that existed before to be a
directory. -/
theorem mergeEntry_spec (t : Node) (q : List String) (tsM dirNow : Nat) (R : Node)
    (h : FilesRs.mergeEntry t q tsM dirNow = .ok R) :
    (∀ p, ¬ Anc q p → ¬ Anc p q → traverseN R p = traverseN t p)
    ∧ (∀ p, Anc p q → p ≠ q → kindAt R p = kindAt t p
        ∨ (p ≠ [] ∧ kindAt t p = .ok none ∧ kindAt R p = .ok (some (.dirK dirNow))))
    ∧ (∀ n, traverseN t q = .ok (some n) → traverseN R q = .ok (some (n.setTs tsM)))
    ∧ (traverseN t q = .ok none → traverseN R q = .ok (some (.tomb tsM)))
    ∧ (∀ n, traverseN t q = .ok (some n) → ∀ p, Anc q p → p ≠ q →
        traverseN R p = traverseN t p)
    ∧ (∀ p, Anc p q → p ≠ q → ∀ k, kindAt t p = .ok (some k) → ∃ ts0, k = .dirK ts0) := by
  cases hq : q.getLast? with
  | none =>
      unfold FilesRs.mergeEntry at h
      rw [hq] at h
      simp at h
  | some child =>
      have hsplit : q.dropLast ++ [child] = q := concat_split q child hq
      unfold FilesRs.mergeEntry at h
      rw [hq] at h
      simp only [except_bind_ok_iff] at h
      obtain ⟨t1, hmdr, hmatch⟩ := h
      cases htm : traverseModify t1 q.dropLast (FilesRs.mergeF child tsM) with
      | ok v =>
          cases v with
          | some R' =>
              simp only [htm, Except.ok.injEq] at hmatch
              subst hmatch
              obtain ⟨m1, m2, hm1, hf⟩ :=
                traverseModify_ok_inv q.dropLast (FilesRs.mergeF child tsM) t1 R' htm
              cases m1 with
              | file o1 ts1 => simp [FilesRs.mergeF] at hf
              | tomb ts1 => simp [FilesRs.mergeF] at hf
              | dir cs1 ts1 =>
                  have hmdrSpec := makeDirRecursive_spec t q.dropLast dirNow t1 hmdr
                  have hqpar : ¬ Anc q q.dropLast := by
                    intro hh
                    have h1 := Anc_length hh
                    have h2 : q.dropLast.length < q.length := by
                      rw [← hsplit]; simp
                    omega
                  have hP : ∀ p, Anc p q → p ≠ q →
                      ∀ k, kindAt t p = .ok (some k) → ∃ ts0, k = .dirK ts0 := by
                    intro p hpq hpne k hk
                    have hppar : Anc p q.dropLast := by
                      rcases Anc_concat_cases (hsplit ▸ hpq) with heq | hanc
                      · exact absurd (by rw [heq, hsplit]) hpne
                      · exact hanc
                    have hdir1 : ∃ cs0 ts0, traverseN t1 p = .ok (some (.dir cs0 ts0)) := by
                      obtain ⟨rest, hrest⟩ := hppar
                      cases rest with
                      | nil =>
                          rw [List.append_nil] at hrest
                          subst hrest
                          exact ⟨cs1, ts1, hm1⟩
                      | cons r0 r1 =>
                          exact present_mid_dir t1 p (r0 :: r1) (.dir cs1 ts1)
                            (by rw [hrest]; exact hm1) (by simp)
                    obtain ⟨cs0, ts0, hdir1⟩ := hdir1
                    rcases hmdrSpec p with hu | ⟨_, _, hnone, _⟩ | ⟨_, _, hkind⟩
                    · have hcg := kindAt_congr hu
                      rw [← hcg, kindAt_of_traverseN t1 p _ hdir1] at hk
                      simp only [Node.kind, Except.ok.injEq, Option.some.injEq] at hk
                      exact ⟨ts0, hk.symm⟩
                    · rw [(kindAt_none_iff t p).mpr hnone] at hk
                      exact absurd hk (by simp)
                    · rw [← hkind, kindAt_of_traverseN t1 p _ hdir1] at hk
                      simp only [Node.kind, Except.ok.injEq, Option.some.injEq] at hk
                      exact ⟨ts0, hk.symm⟩
                  obtain ⟨y, hfv, hySome, hyNone⟩ := mergeF_dir_shape child tsM cs1 ts1
                  obtain ⟨n2, htm2, hat, hfrI, hancI, _⟩ :=
                    traverseModify_spec q.dropLast (FilesRs.mergeF child tsM) t1
                      (.dir cs1 ts1) _ hm1 hfv
                  rw [htm] at htm2
                  simp only [Except.ok.injEq, Option.some.injEq] at htm2
                  subst htm2
                  refine ⟨?_, ?_, ?_, ?_, ?_, hP⟩
                  · -- incomparable frame
                    intro p hqp hpq
                    by_cases hparp : Anc q.dropLast p
                    · obtain ⟨rest, hrest⟩ := hparp
                      cases rest with
                      | nil =>
                          rw [List.append_nil] at hrest
                          subst hrest
                          exact absurd ⟨[child], hsplit⟩ hpq
                      | cons c0 rest2 =>
                          subst hrest
                          have hc0 : c0 ≠ child := by
                            intro hh
                            subst hh
                            exact hqp ⟨rest2, by rw [← hsplit]; simp⟩
                          have e1 := traverseN_append q.dropLast (c0 :: rest2) R'
                          simp only [hat] at e1
                          simp only [traverseN] at e1
                          rw [lookupA_insertA_ne cs1 child c0 _ hc0] at e1
                          have e2 := traverseN_append q.dropLast (c0 :: rest2) t1
                          simp only [hm1] at e2
                          simp only [traverseN] at e2
                          rcases hmdrSpec (q.dropLast ++ c0 :: rest2) with hu
                            | ⟨_, hanc, _, _⟩ | ⟨hanc, _, _⟩
                          · rw [e1, ← e2]
                            exact hu
                          · exact absurd (Anc_trans hanc ⟨[child], hsplit⟩) hpq
                          · exact absurd (Anc_trans hanc ⟨[child], hsplit⟩) hpq
                    · by_cases hppar : Anc p q.dropLast
                      · exact absurd (Anc_trans hppar ⟨[child], hsplit⟩) hpq
                      · rw [hfrI p hparp hppar]
                        rcases hmdrSpec p with hu | ⟨_, hanc, _, _⟩ | ⟨hanc, _, _⟩
                        · exact hu
                        · exact absurd (Anc_trans hanc ⟨[child], hsplit⟩) hpq
                        · exact absurd (Anc_trans hanc ⟨[child], hsplit⟩) hpq
                  · -- ancestor kinds
                    intro p hpq hpne
                    have hppar : Anc p q.dropLast := by
                      rcases Anc_concat_cases (hsplit ▸ hpq) with heq | hanc
                      · exact absurd (by rw [heq, hsplit]) hpne
                      · exact hanc
                    have hRt1 : kindAt R' p = kindAt t1 p := by
                      obtain ⟨rest, hrest⟩ := hppar
                      cases rest with
                      | nil =>
                          rw [List.append_nil] at hrest
                          subst hrest
                          rw [kindAt_of_traverseN _ _ _ hat, kindAt_of_traverseN _ _ _ hm1]
                          rfl
                      | cons r0 r1 =>
                          refine hancI p ⟨r0 :: r1, hrest⟩ ?_
                          intro hh
                          subst hh
                          have := congrArg List.length hrest
                          simp at this
                    rcases hmdrSpec p with hu | ⟨hpne2, _, hnone2, hkind2⟩ | ⟨_, _, hkind2⟩
                    · left
                      rw [hRt1, kindAt_congr hu]
                    · right
                      exact ⟨hpne2, (kindAt_none_iff t p).mpr hnone2, by rw [hRt1, hkind2]⟩
                    · left
                      rw [hRt1, hkind2]
                  · -- present entry: timestamp refresh
                    intro n hn
                    have hpres : ∀ k, ∃ c, traverseN t (q.dropLast.take k) = .ok (some c) := by
                      intro k
                      have hk : q.dropLast.take k ++ (q.dropLast.drop k ++ [child]) = q := by
                        rw [← List.append_assoc, List.take_append_drop, hsplit]
                      exact present_prefix t _ _ n (by rw [hk]; exact hn)
                    have hnoop := makeDirRecursive_noop t q.dropLast dirNow hpres
                    rw [hmdr] at hnoop
                    injection hnoop with ht1
                    subst ht1
                    obtain ⟨cs, ts, hpar2, hcl2⟩ :=
                      present_decomp t1 q.dropLast child n (by rw [hsplit]; exact hn)
                    rw [hm1] at hpar2
                    simp only [Except.ok.injEq, Option.some.injEq, Node.dir.injEq] at hpar2
                    obtain ⟨rfl, rfl⟩ := hpar2
                    rw [← hsplit]
                    have e := traverseN_append q.dropLast [child] R'
                    simp only [hat] at e
                    rw [e]
                    simp only [traverseN, lookupA_insertA_self]
                    rw [hySome n hcl2]
                  · -- absent entry: tombstone
                    intro hnone
                    have ht1q : traverseN t1 q = .ok none := by
                      rcases hmdrSpec q with hu | ⟨_, hanc, _, _⟩ | ⟨hanc, _, _⟩
                      · rw [hu]; exact hnone
                      · exact absurd hanc hqpar
                      · exact absurd hanc hqpar
                    have hcl : lookupA cs1 child = none := by
                      rw [← hsplit] at ht1q
                      have e := traverseN_append q.dropLast [child] t1
                      simp only [hm1] at e
                      rw [e] at ht1q
                      cases hcl : lookupA cs1 child with
                      | some c => simp [traverseN, hcl] at ht1q
                      | none => rfl
                    rw [← hsplit]
                    have e := traverseN_append q.dropLast [child] R'
                    simp only [hat] at e
                    rw [e]
                    simp only [traverseN, lookupA_insertA_self]
                    rw [hyNone hcl]
                  · -- descendants of a present entry are untouched
                    intro n hn p hqp hpne
                    have hpres : ∀ k, ∃ c, traverseN t (q.dropLast.take k) = .ok (some c) := by
                      intro k
                      have hk : q.dropLast.take k ++ (q.dropLast.drop k ++ [child]) = q := by
                        rw [← List.append_assoc, List.take_append_drop, hsplit]
                      exact present_prefix t _ _ n (by rw [hk]; exact hn)
                    have hnoop := makeDirRecursive_noop t q.dropLast dirNow hpres
                    rw [hmdr] at hnoop
                    injection hnoop with ht1
                    subst ht1
                    obtain ⟨cs, ts, hpar2, hcl2⟩ :=
                      present_decomp t1 q.dropLast child n (by rw [hsplit]; exact hn)
                    rw [hm1] at hpar2
                    simp only [Except.ok.injEq, Option.some.injEq, Node.dir.injEq] at hpar2
                    obtain ⟨rfl, rfl⟩ := hpar2
                    obtain ⟨s, hs⟩ := hqp
                    cases s with
                    | nil =>
                        rw [List.append_nil] at hs
                        exact absurd hs.symm hpne
                    | cons s0 s1 =>
                        subst hs
                        have hp2 : q.dropLast ++ (child :: s0 :: s1) = q ++ s0 :: s1 := by
                          rw [← hsplit]
                          simp
                        rw [← hp2]
                        have e1 := traverseN_append q.dropLast (child :: s0 :: s1) R'
                        simp only [hat] at e1
                        simp only [traverseN, lookupA_insertA_self] at e1
                        have e2 := traverseN_append q.dropLast (child :: s0 :: s1) t1
                        simp only [hm1] at e2
                        simp only [traverseN, hcl2] at e2
                        rw [e1, e2, hySome n hcl2,
                          traverseN_setTs n tsM (s0 :: s1) (by simp)]
          | none => simp [htm] at hmatch
      | error e => simp [htm] at hmatch

/-! ### Structure of `file_list` -/

theorem Anc_antisymm {a b : List String} (h1 : Anc a b) (h2 : Anc b a) : a = b := by
  have l2 := Anc_length h2
  obtain ⟨r, hr⟩ := h1
  cases r with
  | nil => rw [List.append_nil] at hr; exact hr
  | cons x xs =>
      rw [← hr] at l2
      simp only [List.length_append, List.length_cons] at l2
      omega

mutual

theorem fileListNode_anc (c : Node) (pref : List String) :
    ∀ e ∈ FilesRs.fileListNode c pref, Anc pref e.1 := by
  cases c with
  | file o ts =>
      intro e he
      simp only [FilesRs.fileListNode, List.mem_singleton] at he
      subst he
      exact Anc_self pref
  | tomb ts =>
      intro e he
      simp only [FilesRs.fileListNode, List.mem_singleton] at he
      subst he
      exact Anc_self pref
  | dir cs ts =>
      intro e he
      simp only [FilesRs.fileListNode] at he
      obtain ⟨name, _, hanc⟩ := fileListKids_anc cs pref e he
      exact Anc_trans (Anc_append pref [name]) hanc

theorem fileListKids_anc (cs : List (String × Node)) (pref : List String) :
    ∀ e ∈ FilesRs.fileListKids cs pref,
      ∃ name, name ∈ cs.map Prod.fst ∧ Anc (pref ++ [name]) e.1 := by
  cases cs with
  | nil => intro e he; simp [FilesRs.fileListKids] at he
  | cons x rest =>
      intro e he
      obtain ⟨name, c⟩ := x
      simp only [FilesRs.fileListKids, List.mem_append] at he
      rcases he with he | he
      · exact ⟨name, by simp, fileListNode_anc c (pref ++ [name]) e he⟩
      · obtain ⟨name2, hmem, hanc⟩ := fileListKids_anc rest pref e he
        exact ⟨name2, by simp [hmem], hanc⟩

end

mutual

theorem fileListNode_pw (c : Node) (pref : List String) (hwf : c.wf = true) :
    ((FilesRs.fileListNode c pref).map Prod.fst).Pairwise
      (fun a b => ¬ Anc a b ∧ ¬ Anc b a) := by
  cases c with
  | file o ts => simp [FilesRs.fileListNode]
  | tomb ts => simp [FilesRs.fileListNode]
  | dir cs ts =>
      simp only [Node.wf, Bool.and_eq_true] at hwf
      simp only [FilesRs.fileListNode]
      exact fileListKids_pw cs pref hwf.1 hwf.2

theorem fileListKids_pw (cs : List (String × Node)) (pref : List String)
    (hnd : keysND cs = true) (hwk : wfKids cs = true) :
    ((FilesRs.fileListKids cs pref).map Prod.fst).Pairwise
      (fun a b => ¬ Anc a b ∧ ¬ Anc b a) := by
  cases cs with
  | nil => simp [FilesRs.fileListKids]
  | cons x rest =>
      obtain ⟨name, c⟩ := x
      simp only [keysND, Bool.and_eq_true] at hnd
      simp only [wfKids, Bool.and_eq_true] at hwk
      simp only [FilesRs.fileListKids, List.map_append]
      rw [List.pairwise_append]
      refine ⟨fileListNode_pw c (pref ++ [name]) hwk.1,
        fileListKids_pw rest pref hnd.2 hwk.2, ?_⟩
      intro a ha b hb
      obtain ⟨e1, he1, rfl⟩ := List.mem_map.mp ha
      obtain ⟨e2, he2, rfl⟩ := List.mem_map.mp hb
      have h1 := fileListNode_anc c (pref ++ [name]) e1 he1
      obtain ⟨name2, hmem2, h2⟩ := fileListKids_anc rest pref e2 he2
      have hne : name ≠ name2 := by
        intro hh
        have hcont : ((rest.map Prod.fst).contains name) = false := by
          simpa using hnd.1
        rw [hh] at hcont
        have hmem2' : (rest.map Prod.fst).contains name2 = true :=
          List.elem_eq_true_of_mem hmem2
        rw [hmem2'] at hcont
        exact Bool.noConfusion hcont
      exact ⟨Anc_branch_sep hne h1 h2, Anc_branch_sep (Ne.symm hne) h2 h1⟩

end

/-! ### The merge fold -/

theorem mergeEntry_fold_spec (tsM dirNow : Nat) :
    ∀ (l : List (List String × Option Object × Nat)) (t R : Node),
    l.foldlM (fun acc e => FilesRs.mergeEntry acc e.1 tsM dirNow) t = .ok R →
    (l.map Prod.fst).Pairwise (fun a b => ¬ Anc a b ∧ ¬ Anc b a) →
    (∀ p o, (∃ ts, traverseN t p = .ok (some (.file o ts))) →
        ∃ ts2, traverseN R p = .ok (some (.file o ts2)))
    ∧ (∀ p, (∀ q ∈ l.map Prod.fst, ¬ Anc q p ∧ ¬ Anc p q) →
        traverseN R p = traverseN t p)
    ∧ (∀ q ∈ l.map Prod.fst,
        (traverseN t q = .ok none → traverseN R q = .ok (some (.tomb tsM)))
        ∧ (∀ n, traverseN t q = .ok (some n) →
            traverseN R q = .ok (some (n.setTs tsM)))) := by
  intro l
  induction l with
  | nil =>
      intro t R hfold _
      have ht : t = R := by simpa [pure, Except.pure] using hfold
      subst ht
      exact ⟨fun p o h => h, fun p _ => rfl, by simp⟩
  | cons e rest ih =>
      intro t R hfold hpw
      rw [List.foldlM_cons, except_bind_ok_iff] at hfold
      obtain ⟨t1, hstep, hrest⟩ := hfold
      rw [List.map_cons, List.pairwise_cons] at hpw
      obtain ⟨hhead, hpwrest⟩ := hpw
      obtain ⟨hF1, hF2, hE1, hE2, hD, hP⟩ := mergeEntry_spec t e.1 tsM dirNow t1 hstep
      obtain ⟨ihA, ihB, ihC⟩ := ih t1 R hrest hpwrest
      refine ⟨?_, ?_, ?_⟩
      · -- live files survive
        intro p o hex
        obtain ⟨ts, hts⟩ := hex
        apply ihA p o
        by_cases hqp : Anc e.1 p
        · by_cases hpq : Anc p e.1
          · have hple : p = e.1 := Anc_antisymm hpq hqp
            subst hple
            refine ⟨tsM, ?_⟩
            have := hE1 (.file o ts) hts
            simpa [Node.setTs] using this
          · obtain ⟨s, hs⟩ := hqp
            obtain ⟨m, hm⟩ := present_prefix t e.1 s _ (by rw [hs]; exact hts)
            have hpne : p ≠ e.1 := by
              intro hh
              rw [hh] at hpq
              exact hpq (Anc_self e.1)
            exact ⟨ts, by rw [hD m hm p ⟨s, hs⟩ hpne]; exact hts⟩
        · by_cases hpq : Anc p e.1
          · have hpne : p ≠ e.1 := by
              intro hh
              rw [hh] at hqp
              exact hqp (Anc_self e.1)
            obtain ⟨ts0, hk⟩ := hP p hpq hpne (.fileK o ts) (kindAt_of_traverseN t p _ hts)
            exact absurd hk (by simp)
          · exact ⟨ts, by rw [hF1 p hqp hpq]; exact hts⟩
      · -- frame
        intro p hall
        have h0 := hall e.1 (by simp)
        rw [ihB p (fun q hq => hall q (by simp [hq])), hF1 p h0.1 h0.2]
      · -- the processed entries
        intro q hq
        simp only [List.map_cons, List.mem_cons] at hq
        rcases hq with hq | hq
        · subst hq
          have hfr := ihB e.1 (fun q' hq' => ⟨(hhead q' hq').2, (hhead q' hq').1⟩)
          constructor
          · intro hnone
            rw [hfr, hE2 hnone]
          · intro n hn
            rw [hfr, hE1 n hn]
        · have hrel := hhead q hq
          have hstepfr := hF1 q hrel.1 hrel.2
          have hc := ihC q hq
          constructor
          · intro hnone
            exact hc.1 (by rw [hstepfr]; exact hnone)
          · intro n hn
            exact hc.2 n (by rw [hstepfr]; exact hn)

/-! ### Rollback (claim C1) -/

/-- The clean part of the original claim fails: a path that is a live file in
the latest snapshot but not a live file in the selected revision need not
become a tombstone after rollback — when the old tree holds a directory at
that path, `Node::merge` finds the directory via `get_child` and merely
refreshes its timestamp, so the new latest snapshot keeps a directory there.
History: rev 0 has a directory at `x`, the latest has a live file at `x`. -/
theorem rollback_counterexample :
    resolveRevision
        [(0, Node.dir [("x", Node.dir [] 0)] 0), (1, Node.dir [("x", Node.file ⟨[1]⟩ 1)] 1)]
        (.FromEarliest 0) = some (0, Node.dir [("x", Node.dir [] 0)] 0)
    ∧ resolveRevision
        [(0, Node.dir [("x", Node.dir [] 0)] 0), (1, Node.dir [("x", Node.file ⟨[1]⟩ 1)] 1)]
        (.FromLatest 0) = some (1, Node.dir [("x", Node.file ⟨[1]⟩ 1)] 1)
    ∧ kindAt (Node.dir [("x", Node.file ⟨[1]⟩ 1)] 1) ["x"] = .ok (some (.fileK ⟨[1]⟩ 1))
    ∧ kindAt (Node.dir [("x", Node.dir [] 0)] 0) ["x"] = .ok (some (.dirK 0))
    ∧ rollback
        [(0, Node.dir [("x", Node.dir [] 0)] 0), (1, Node.dir [("x", Node.file ⟨[1]⟩ 1)] 1)]
        (.FromEarliest 0) 5 6 9
      = .ok [(0, Node.dir [("x", Node.dir [] 0)] 0),
             (1, Node.dir [("x", Node.file ⟨[1]⟩ 1)] 1),
             (9, Node.dir [("x", Node.dir [] 5)] 0)]
    ∧ (∀ ts, kindAt (Node.dir [("x", Node.dir [] 5)] 0) ["x"] ≠ .ok (some (.tombK ts))) := by
  refine ⟨rfl, rfl, rfl, rfl, rfl, ?_⟩
  intro ts h
  have : kindAt (Node.dir [("x", Node.dir [] 5)] 0) ["x"] = .ok (some (.dirK 5)) := rfl
  rw [this] at h
  simp at h

/-- C1 (amended): `Rollback::call` (src/server/methods/fs.rs) loads the root
selected by `rev` and the latest root, runs `old.merge(latest)` and appends
the merged tree as one new history entry.  When it succeeds: every live file
of the selected revision is still a live file with the same object in the new
latest snapshot (possibly with a refreshed timestamp); for every path in the
latest snapshot's `file_list`, if the path is absent from the selected
revision it is a tombstone stamped with the single merge timestamp `tsM`,
while if some node exists there in the selected revision that node is kept
with its timestamp refreshed to `tsM` (a directory stays a directory — it
does not become a tombstone); paths incomparable with every `file_list` entry
are untouched.  `hwf` is HashMap well-formedness (distinct keys) of the
deserialized latest tree. -/
theorem rollback_spec (hist : List (Nat × Node)) (rev : Revision)
    (tsM dirNow nowAppend tsOld tsNew : Nat) (oldRoot newRoot : Node)
    (hist2 : List (Nat × Node))
    (hold : resolveRevision hist rev = some (tsOld, oldRoot))
    (hnew : resolveRevision hist (.FromLatest 0) = some (tsNew, newRoot))
    (hwf : newRoot.wf = true)
    (h : rollback hist rev tsM dirNow nowAppend = .ok hist2) :
    ∃ R fl, hist2 = hist ++ [(nowAppend, R)]
      ∧ FilesRs.file_list newRoot = .ok fl
      ∧ (∀ p o, (∃ ts, traverseN oldRoot p = .ok (some (.file o ts))) →
          ∃ ts2, traverseN R p = .ok (some (.file o ts2)))
      ∧ (∀ q ∈ fl.map Prod.fst,
          (traverseN oldRoot q = .ok none → traverseN R q = .ok (some (.tomb tsM)))
          ∧ (∀ n, traverseN oldRoot q = .ok (some n) →
              traverseN R q = .ok (some (n.setTs tsM))))
      ∧ (∀ p, (∀ q ∈ fl.map Prod.fst, ¬ Anc q p ∧ ¬ Anc p q) →
          traverseN R p = traverseN oldRoot p) := by
  unfold rollback at h
  simp only [hold, hnew] at h
  rw [except_bind_ok_iff] at h
  obtain ⟨R, hmerge, hok⟩ := h
  have hist2eq : hist2 = hist ++ [(nowAppend, R)] := by
    injection hok with hh
    exact hh.symm
  unfold FilesRs.merge at hmerge
  rw [except_bind_ok_iff] at hmerge
  obtain ⟨fl, hfl, hfold⟩ := hmerge
  have hpw : (fl.map Prod.fst).Pairwise (fun a b => ¬ Anc a b ∧ ¬ Anc b a) := by
    cases newRoot with
    | dir cs ts =>
        simp only [FilesRs.file_list, Except.ok.injEq] at hfl
        subst hfl
        simp only [Node.wf, Bool.and_eq_true] at hwf
        exact fileListKids_pw cs [] hwf.1 hwf.2
    | file o ts => simp [FilesRs.file_list] at hfl
    | tomb ts => simp [FilesRs.file_list] at hfl
  obtain ⟨hA, hB, hC⟩ := mergeEntry_fold_spec tsM dirNow fl oldRoot R hfold hpw
  exact ⟨R, fl, hist2eq, hfl, hA, hC, hB⟩

/-- Witness for `rollback_spec` at a concrete one-entry history. -/
theorem rollback_spec_witness :
    ∃ R fl,
      [(0, Node.dir [("a", Node.file ⟨[1]⟩ 0)] 0), (9, Node.dir [("a", Node.file ⟨[1]⟩ 5)] 0)]
        = [(0, Node.dir [("a", Node.file ⟨[1]⟩ 0)] 0)] ++ [(9, R)]
      ∧ FilesRs.file_list (Node.dir [("a", Node.file ⟨[1]⟩ 0)] 0) = .ok fl
      ∧ (∀ p o, (∃ ts, traverseN (Node.dir [("a", Node.file ⟨[1]⟩ 0)] 0) p
            = .ok (some (.file o ts))) →
          ∃ ts2, traverseN R p = .ok (some (.file o ts2)))
      ∧ (∀ q ∈ fl.map Prod.fst,
          (traverseN (Node.dir [("a", Node.file ⟨[1]⟩ 0)] 0) q = .ok none →
            traverseN R q = .ok (some (.tomb 5)))
          ∧ (∀ n, traverseN (Node.dir [("a", Node.file ⟨[1]⟩ 0)] 0) q = .ok (some n) →
              traverseN R q = .ok (some (n.setTs 5))))
      ∧ (∀ p, (∀ q ∈ fl.map Prod.fst, ¬ Anc q p ∧ ¬ Anc p q) →
          traverseN R p = traverseN (Node.dir [("a", Node.file ⟨[1]⟩ 0)] 0) p) :=
  rollback_spec [(0, Node.dir [("a", Node.file ⟨[1]⟩ 0)] 0)] (.FromLatest 0)
    5 6 9 0 0 (Node.dir [("a", Node.file ⟨[1]⟩ 0)] 0) (Node.dir [("a", Node.file ⟨[1]⟩ 0)] 0)
    [(0, Node.dir [("a", Node.file ⟨[1]⟩ 0)] 0), (9, Node.dir [("a", Node.file ⟨[1]⟩ 5)] 0)]
    rfl rfl rfl rfl
